import Mathlib

/-!
Verification of the tic-tac-toe core (board state + minimax search with
alpha-beta pruning) of `src/main.rs`, as a shallow embedding.

Modelling conventions:
* `Vec<char>` becomes `List Char`; `usize` indices become `Nat`.
* `i8`/`i32` values become `Int`; the one place the source performs a
  narrowing cast (`min_eval as i8` / `max_eval as i8`) is modelled by the
  explicit two's-complement truncation `toI8`.
* Rust's in-place board mutation is modelled by explicit state passing:
  `minimax` and `best_move` return the final board next to their result,
  so that restoration ("undo before returning") is a provable statement.
* Rust recursion carries no fuel; the embedding threads a `Nat` fuel and
  returns `none` on exhaustion.  All theorems are stated at fuel `10`,
  which the restoration lemmas show is enough for every board with at
  most nine empty cells.
* A panic (`evaluate` on an in-progress board, `expect`/`unwrap`) is
  modelled as `Option.none`.
-/

inductive GameOver where
  | Winner (c : Char)
  | Draw
  | OnGoing
  deriving DecidableEq, Repr

structure TicTacToe where
  player_1 : Char
  player_2 : Char
  board : List Char
  deriving DecidableEq, Repr

/-- Constructor `TicTacToe::new`: players `'X'`, `'O'`, cells labelled by their digits. -/
def TicTacToe.new : TicTacToe :=
  { player_1 := 'X', player_2 := 'O',
    board := ['0', '1', '2', '3', '4', '5', '6', '7', '8'] }

/-- Board cell access `self.board[i]`; out-of-range reads (which would panic
in Rust) yield the harmless default `' '`, a character no source function
ever stores. -/
def TicTacToe.cell (t : TicTacToe) (i : Nat) : Char :=
  (t.board[i]?).getD ' '

/-- Query `TicTacToe::turn_to_move`: count each player's marks, `player_1` moves
when its count is `≤` the other's. -/
def TicTacToe.turn_to_move (t : TicTacToe) : Char :=
  if t.board.countP (· == t.player_1) ≤ t.board.countP (· == t.player_2) then
    t.player_1
  else
    t.player_2

/-- Mutator `TicTacToe::make_move`: write the mark of the side to move into the cell. -/
def TicTacToe.make_move (t : TicTacToe) (mv : Nat) : TicTacToe :=
  { t with board := t.board.set mv t.turn_to_move }

/-- The value `std::char::from_digit(mv, 10).unwrap()` for the indices `0..9` used by
the program. -/
def digitChar (mv : Nat) : Char :=
  Char.ofNat (48 + mv)

/-- Mutator `TicTacToe::undo_move`: restore the digit label of the cell. -/
def TicTacToe.undo_move (t : TicTacToe) (mv : Nat) : TicTacToe :=
  { t with board := t.board.set mv (digitChar mv) }

/-- Validity check `TicTacToe::is_move_valid`. -/
def TicTacToe.is_move_valid (t : TicTacToe) (mv : Nat) : Bool :=
  if t.board.length ≤ mv then false
  else (t.cell mv != t.player_1) && (t.cell mv != t.player_2)

/-- The eight winning triples, in the source's scan order. -/
def winning_positions : List (Nat × Nat × Nat) :=
  [(0, 1, 2), (3, 4, 5), (6, 7, 8), (0, 3, 6), (1, 4, 7), (2, 5, 8),
   (0, 4, 8), (2, 4, 6)]

/-- One winning-triple check of `TicTacToe::game_over`. -/
def TicTacToe.lineWin (t : TicTacToe) (player : Char) (wp : Nat × Nat × Nat) : Bool :=
  player == t.cell wp.1 && t.cell wp.1 == t.cell wp.2.1 &&
    t.cell wp.2.1 == t.cell wp.2.2

/-- Whether `player` completes some winning triple (the inner loop of
`TicTacToe::game_over`). -/
def TicTacToe.hasWin (t : TicTacToe) (player : Char) : Bool :=
  winning_positions.any (t.lineWin player)

/-- Outcome scan `TicTacToe::game_over`: scan `player_1`'s triples, then `player_2`'s,
then look for an unmarked cell. -/
def TicTacToe.game_over (t : TicTacToe) : GameOver :=
  if t.hasWin t.player_1 then GameOver.Winner t.player_1
  else if t.hasWin t.player_2 then GameOver.Winner t.player_2
  else if t.board.any (fun c => c != t.player_1 && c != t.player_2) then
    GameOver.OnGoing
  else GameOver.Draw

/-- Terminal score `TicTacToe::evaluate`; its panic on an in-progress board is `none`. -/
def TicTacToe.evaluate (t : TicTacToe) : Option Int :=
  match t.game_over with
  | GameOver.Draw => some 0
  | GameOver.Winner player => some (if player = t.player_1 then 1 else -1)
  | GameOver.OnGoing => none

/-- Move list `TicTacToe::get_all_moves`: unmarked cell indices, ascending. -/
def TicTacToe.get_all_moves (t : TicTacToe) : List Nat :=
  (List.range t.board.length).filter
    (fun pos => (t.cell pos != t.player_1) && (t.cell pos != t.player_2))

/-- The narrowing cast `as i8`: two's-complement truncation to 8 bits. -/
def toI8 (n : Int) : Int :=
  (n + 128) % 256 - 128

/-- The maximizing branch of `TicTacToe::minimax`'s move loop, parameterized
by the recursive call `eval1` (one fuel level down).  `acc` is the running
`min_eval : i32`, `alpha`/`beta` the `i8` bounds; the board is threaded and
each move is undone before the next sibling and before any return, exactly
as in the source (also on the `beta <= alpha` break). -/
def maxLoopF (eval1 : TicTacToe → Int → Int → Option (Int × TicTacToe)) :
    TicTacToe → List Nat → Int → Int → Int → Option (Int × TicTacToe)
  | t, [], _, _, acc => some (toI8 acc, t)
  | t, pos :: rest, alpha, beta, acc =>
    match eval1 (t.make_move pos) alpha beta with
    | none => none
    | some pr =>
      let t3 := pr.2.undo_move pos
      let acc2 := max acc pr.1
      let alpha2 := max alpha pr.1
      if beta ≤ alpha2 then some (toI8 acc2, t3)
      else maxLoopF eval1 t3 rest alpha2 beta acc2

/-- The minimizing branch of `TicTacToe::minimax`'s move loop; `acc` is the
running `max_eval : i32`. -/
def minLoopF (eval1 : TicTacToe → Int → Int → Option (Int × TicTacToe)) :
    TicTacToe → List Nat → Int → Int → Int → Option (Int × TicTacToe)
  | t, [], _, _, acc => some (toI8 acc, t)
  | t, pos :: rest, alpha, beta, acc =>
    match eval1 (t.make_move pos) alpha beta with
    | none => none
    | some pr =>
      let t3 := pr.2.undo_move pos
      let acc2 := min acc pr.1
      let beta2 := min beta pr.1
      if beta2 ≤ alpha then some (toI8 acc2, t3)
      else minLoopF eval1 t3 rest alpha beta2 acc2

/-- Search `TicTacToe::minimax` with fuel.  The accumulators start at
`i32::MIN`/`i32::MAX` and the final `as i8` cast is kept (`toI8` in the
loops above), exactly as in the source. -/
def TicTacToe.minimax : Nat → TicTacToe → Int → Int → Option (Int × TicTacToe)
  | 0, _, _, _ => none
  | Nat.succ fuel, t, alpha, beta =>
    match t.game_over with
    | GameOver.OnGoing =>
      if t.turn_to_move = t.player_1 then
        maxLoopF (fun t2 a b => TicTacToe.minimax fuel t2 a b) t
          t.get_all_moves alpha beta (-(2 ^ 31))
      else
        minLoopF (fun t2 a b => TicTacToe.minimax fuel t2 a b) t
          t.get_all_moves alpha beta (2 ^ 31 - 1)
    | _ => t.evaluate.map (fun v => (v, t))

/-- Modelled from the spec: "a plain exhaustive minimax without pruning"
(the reference point of the refinement claim about alpha-beta).  The body of
one move of the loop, parameterized by the recursive call `eval1`:
the combined value of the remaining moves is the max (`maxi = true`) or min
(`maxi = false`) of the children's plain minimax values. -/
def plainLoopF (eval1 : TicTacToe → Option Int) (t : TicTacToe) (maxi : Bool) :
    List Nat → Option Int
  | [] => none
  | pos :: rest =>
    (eval1 (t.make_move pos)).bind (fun v =>
      match rest with
      | [] => some v
      | _ :: _ =>
        (plainLoopF eval1 t maxi rest).map
          (fun w => if maxi then max v w else min v w))

/-- Modelled from the spec: plain exhaustive minimax (no alpha-beta, no
mutation: each child position is `t.make_move pos` of the same parent `t`).
Terminal boards evaluate; otherwise the value is the max/min over all legal
moves of the children's values. -/
def plainMinimax : Nat → TicTacToe → Option Int
  | 0, _ => none
  | Nat.succ fuel, t =>
    match t.game_over with
    | GameOver.OnGoing =>
      if t.turn_to_move = t.player_1 then
        plainLoopF (plainMinimax fuel) t true t.get_all_moves
      else
        plainLoopF (plainMinimax fuel) t false t.get_all_moves
    | _ => t.evaluate

/-- The evaluation loop of `TicTacToe::best_move`: for each legal move,
apply it, run `minimax` with the full window `(i8::MIN, i8::MAX)`, undo it,
and record the pair `[pos as i8, score]`. -/
def bmLoopF (eval1 : TicTacToe → Int → Int → Option (Int × TicTacToe)) :
    TicTacToe → List Nat → Option (List (Int × Int) × TicTacToe)
  | t, [] => some ([], t)
  | t, pos :: rest =>
    match eval1 (t.make_move pos) (-128) 127 with
    | none => none
    | some pr =>
      (bmLoopF eval1 (pr.2.undo_move pos) rest).map
        (fun qr => ((toI8 (pos : Int), pr.1) :: qr.1, qr.2))

/-- Rust's `Iterator::max_by_key` on `(move, score)` pairs keyed by the
score: of several equally maximal elements the LAST one is returned, so the
accumulator is replaced whenever the new key is `≥` the current one. -/
def maxByKeyLast (l : List (Int × Int)) : Option (Int × Int) :=
  match l with
  | [] => none
  | p :: rest => some (rest.foldl (fun acc q => if acc.2 ≤ q.2 then q else acc) p)

/-- Rust's `Iterator::min_by_key` on `(move, score)` pairs keyed by the
score: of several equally minimal elements the FIRST one is returned, so the
accumulator is replaced only when the new key is strictly smaller. -/
def minByKeyFirst (l : List (Int × Int)) : Option (Int × Int) :=
  match l with
  | [] => none
  | p :: rest => some (rest.foldl (fun acc q => if q.2 < acc.2 then q else acc) p)

/-- Modelled from the spec (the selection rule claimed for `best_move`):
the FIRST pair of maximal score, i.e. the accumulator is replaced only when
the new key is strictly greater. -/
def maxByKeyFirst (l : List (Int × Int)) : Option (Int × Int) :=
  match l with
  | [] => none
  | p :: rest => some (rest.foldl (fun acc q => if acc.2 < q.2 then q else acc) p)

/-- Selection `TicTacToe::best_move` with fuel: collect the `(move, score)` pairs,
then pick with `max_by_key` (`player_1` to move) or `min_by_key` (keyed by
the score component), returning the sentinel `-1` when there are no moves.
The final board is threaded out so that restoration is a statement. -/
def TicTacToe.best_move (fuel : Nat) (t : TicTacToe) : Option (Int × TicTacToe) :=
  (bmLoopF (fun t2 a b => TicTacToe.minimax fuel t2 a b) t t.get_all_moves).map
    (fun qr =>
      (match (if t.turn_to_move = t.player_1 then maxByKeyLast qr.1
              else minByKeyFirst qr.1) with
       | some pr => pr.1
       | none => -1, qr.2))

/-- Boards reachable by the game loop of `start_game`: from `TicTacToe::new`,
a move is applied only while `game_over` is `OnGoing` and after
`is_move_valid` approved it. -/
inductive Reachable : TicTacToe → Prop
  | init : Reachable TicTacToe.new
  | step {t : TicTacToe} {mv : Nat} : Reachable t →
      t.game_over = GameOver.OnGoing → t.is_move_valid mv = true →
      Reachable (t.make_move mv)

/-- The state invariant of the program's boards: the players are `'X'` and
`'O'`, the board has nine cells, and every unmarked cell still holds its
digit label (which is what `undo_move` restores). -/
def WfBoard (t : TicTacToe) : Prop :=
  t.player_1 = 'X' ∧ t.player_2 = 'O' ∧ t.board.length = 9 ∧
  ∀ i, i < 9 → t.cell i ≠ 'X' → t.cell i ≠ 'O' → t.cell i = digitChar i

instance (t : TicTacToe) : Decidable (WfBoard t) := by
  unfold WfBoard
  infer_instance

/-- The three game-theoretic scores. -/
def scoreRange (r : Int) : Prop :=
  r = -1 ∨ r = 0 ∨ r = 1

/-- Position `pr` is the element Rust's `max_by_key` picks from `pairs`: every
earlier element has key `≤` and every later element key `<`. -/
def IsLastMax (pairs : List (Int × Int)) (pr : Int × Int) : Prop :=
  ∃ l1 l2, pairs = l1 ++ pr :: l2 ∧ (∀ q ∈ l1, q.2 ≤ pr.2) ∧
    ∀ q ∈ l2, q.2 < pr.2

/-- Position `pr` is the element Rust's `min_by_key` picks from `pairs`: every
earlier element has key `>` and every later element key `≥`. -/
def IsFirstMin (pairs : List (Int × Int)) (pr : Int × Int) : Prop :=
  ∃ l1 l2, pairs = l1 ++ pr :: l2 ∧ (∀ q ∈ l1, pr.2 < q.2) ∧
    ∀ q ∈ l2, pr.2 ≤ q.2

/-- The board used to refute the tie-breaking direction claimed for
`best_move` when `player_1` is to move: `O` on cells 0, 2, 4 and `X` on
cells 1, 3, 5, with 6, 7, 8 still open and `X` to move.  All three moves
lose (score `-1`), so they tie. -/
def tieBoard : TicTacToe :=
  { player_1 := 'X', player_2 := 'O',
    board := ['O', 'X', 'O', 'X', 'O', 'X', '6', '7', '8'] }

/-!  A fast mirror of the board queries, used only to certify the value of
the initial position: a board is packed into one `Nat` in base 4 (cell `i`
is digit `i`; `0` empty, `1` the first player's mark, `2` the second's).
Its agreement with the `List Char` model is proved below, not assumed. -/

/-- Digit of the packed board. -/
def cellN (b : Nat) (i : Nat) : Nat :=
  b / 4 ^ i % 4

/-- Packed winning-triple check. -/
def lineN (b : Nat) (p : Nat) (i j k : Nat) : Bool :=
  cellN b i == p && cellN b j == p && cellN b k == p

/-- Packed `hasWin` with the eight triples inlined. -/
def winN (b : Nat) (p : Nat) : Bool :=
  lineN b p 0 1 2 || lineN b p 3 4 5 || lineN b p 6 7 8 ||
  lineN b p 0 3 6 || lineN b p 1 4 7 || lineN b p 2 5 8 ||
  lineN b p 0 4 8 || lineN b p 2 4 6

/-- Packed mark count. -/
def countN (b : Nat) (p : Nat) : Nat :=
  (if cellN b 0 == p then 1 else 0) + (if cellN b 1 == p then 1 else 0) +
  (if cellN b 2 == p then 1 else 0) + (if cellN b 3 == p then 1 else 0) +
  (if cellN b 4 == p then 1 else 0) + (if cellN b 5 == p then 1 else 0) +
  (if cellN b 6 == p then 1 else 0) + (if cellN b 7 == p then 1 else 0) +
  (if cellN b 8 == p then 1 else 0)

/-- Packed "some cell is empty". -/
def emptyN (b : Nat) : Bool :=
  cellN b 0 == 0 || cellN b 1 == 0 || cellN b 2 == 0 || cellN b 3 == 0 ||
  cellN b 4 == 0 || cellN b 5 == 0 || cellN b 6 == 0 || cellN b 7 == 0 ||
  cellN b 8 == 0

/-- Packed `game_over` code: `0` ongoing, `1`/`2` winner, `3` draw. -/
def goN (b : Nat) : Nat :=
  if winN b 1 then 1 else if winN b 2 then 2 else if emptyN b then 0 else 3

/-- Packed `make_move` for an empty cell. -/
def putN (b : Nat) (i : Nat) (p : Nat) : Nat :=
  b + p * 4 ^ i

/-- One existential branch of the certificate search: position `i` is open
and playing `p` there makes `f` succeed. -/
def tryN (f : Nat → Bool) (b : Nat) (p : Nat) (i : Nat) : Bool :=
  cellN b i == 0 && f (putN b i p)

/-- One universal branch of the certificate search: position `i` is taken,
or playing `p` there keeps `f` succeeding. -/
def allN (f : Nat → Bool) (b : Nat) (p : Nat) (i : Nat) : Bool :=
  cellN b i != 0 || f (putN b i p)

/-- One step of the lower-bound certificate check, parameterized by the
recursive call. -/
def lowStep (rec : Int → Nat → Bool) (k : Int) (b : Nat) : Bool :=
  match goN b with
  | 0 =>
    if countN b 1 ≤ countN b 2 then
      tryN (rec k) b 1 4 || tryN (rec k) b 1 0 ||
      tryN (rec k) b 1 2 || tryN (rec k) b 1 6 ||
      tryN (rec k) b 1 8 || tryN (rec k) b 1 1 ||
      tryN (rec k) b 1 3 || tryN (rec k) b 1 5 ||
      tryN (rec k) b 1 7
    else
      allN (rec k) b 2 0 && allN (rec k) b 2 1 &&
      allN (rec k) b 2 2 && allN (rec k) b 2 3 &&
      allN (rec k) b 2 4 && allN (rec k) b 2 5 &&
      allN (rec k) b 2 6 && allN (rec k) b 2 7 &&
      allN (rec k) b 2 8
  | 1 => decide (k ≤ 1)
  | 2 => decide (k ≤ -1)
  | _ => decide (k ≤ 0)

/-- Certificate check for "the first player can force a score `≥ k`": at
the first player's turn some open cell works (tried center/corners first
to keep the search small — order is irrelevant to soundness), at the second
player's turn every open cell must work. -/
def lowN : Nat → Int → Nat → Bool
  | 0, _, _ => false
  | Nat.succ fuel, k, b => lowStep (lowN fuel) k b

/-- One step of the upper-bound certificate check. -/
def upStep (rec : Int → Nat → Bool) (k : Int) (b : Nat) : Bool :=
  match goN b with
  | 0 =>
    if countN b 1 ≤ countN b 2 then
      allN (rec k) b 1 0 && allN (rec k) b 1 1 &&
      allN (rec k) b 1 2 && allN (rec k) b 1 3 &&
      allN (rec k) b 1 4 && allN (rec k) b 1 5 &&
      allN (rec k) b 1 6 && allN (rec k) b 1 7 &&
      allN (rec k) b 1 8
    else
      tryN (rec k) b 2 4 || tryN (rec k) b 2 0 ||
      tryN (rec k) b 2 2 || tryN (rec k) b 2 6 ||
      tryN (rec k) b 2 8 || tryN (rec k) b 2 1 ||
      tryN (rec k) b 2 3 || tryN (rec k) b 2 5 ||
      tryN (rec k) b 2 7
  | 1 => decide ((1 : Int) ≤ k)
  | 2 => decide ((-1 : Int) ≤ k)
  | _ => decide ((0 : Int) ≤ k)

/-- Certificate check for "the second player can force a score `≤ k`". -/
def upN : Nat → Int → Nat → Bool
  | 0, _, _ => false
  | Nat.succ fuel, k, b => upStep (upN fuel) k b

/-- Packed code of a cell character: the first player's mark is `1`, the
second player's `2`, anything else (an empty label) `0`. -/
def encC (c : Char) : Nat :=
  if c == 'X' then 1 else if c == 'O' then 2 else 0

/-- Pack a `List Char` board into its base-4 code. -/
def encB : List Char → Nat
  | [] => 0
  | c :: rest => encC c + 4 * encB rest

/-! ### Basic facts about the board operations -/

lemma toI8_id {n : Int} (h1 : -128 ≤ n) (h2 : n ≤ 127) : toI8 n = n := by
  unfold toI8
  have h0 : (0 : Int) ≤ n + 128 := by omega
  have h256 : n + 128 < 256 := by omega
  rw [Int.emod_eq_of_lt h0 h256]
  omega

lemma scoreRange.toI8_eq {r : Int} (h : scoreRange r) : toI8 r = r := by
  rcases h with h | h | h <;> subst h <;> decide

lemma scoreRange.max_max {a b : Int} (ha : scoreRange a) (hb : scoreRange b) :
    scoreRange (max a b) := by
  rcases max_choice a b with h | h <;> rw [h] <;> assumption

lemma scoreRange.min_min {a b : Int} (ha : scoreRange a) (hb : scoreRange b) :
    scoreRange (min a b) := by
  rcases min_choice a b with h | h <;> rw [h] <;> assumption

lemma scoreRange.le_127 {r : Int} (h : scoreRange r) : r ≤ 127 := by
  rcases h with h | h | h <;> omega

lemma scoreRange.neg_128_le {r : Int} (h : scoreRange r) : -128 ≤ r := by
  rcases h with h | h | h <;> omega

lemma TicTacToe.make_move_player_1 (t : TicTacToe) (mv : Nat) :
    (t.make_move mv).player_1 = t.player_1 := rfl

lemma TicTacToe.make_move_player_2 (t : TicTacToe) (mv : Nat) :
    (t.make_move mv).player_2 = t.player_2 := rfl

lemma TicTacToe.make_move_length (t : TicTacToe) (mv : Nat) :
    (t.make_move mv).board.length = t.board.length := by
  simp [TicTacToe.make_move]

lemma TicTacToe.cell_make_move_self {t : TicTacToe} {mv : Nat}
    (h : mv < t.board.length) : (t.make_move mv).cell mv = t.turn_to_move := by
  simp [TicTacToe.make_move, TicTacToe.cell, List.getElem?_set_self h]

lemma TicTacToe.cell_make_move_ne {t : TicTacToe} {mv i : Nat} (h : i ≠ mv) :
    (t.make_move mv).cell i = t.cell i := by
  simp [TicTacToe.make_move, TicTacToe.cell, List.getElem?_set_ne (Ne.symm h)]

lemma TicTacToe.cell_undo_move_ne {t : TicTacToe} {mv i : Nat} (h : i ≠ mv) :
    (t.undo_move mv).cell i = t.cell i := by
  simp [TicTacToe.undo_move, TicTacToe.cell, List.getElem?_set_ne (Ne.symm h)]

lemma list_set_self {α : Type} {l : List α} {i : Nat} {a : α}
    (h : l[i]? = some a) : l.set i a = l := by
  induction l generalizing i with
  | nil => simp at h
  | cons c rest ih =>
    cases i with
    | zero => simp at h; simp [h]
    | succ j => simp at h; simp [List.set, ih h]

lemma TicTacToe.make_undo {t : TicTacToe} {mv : Nat}
    (h1 : mv < t.board.length) (h2 : t.cell mv = digitChar mv) :
    (t.make_move mv).undo_move mv = t := by
  unfold TicTacToe.make_move TicTacToe.undo_move
  cases t with
  | mk p1 p2 board =>
    have h1' : mv < board.length := h1
    have hc : board[mv] = digitChar mv := by
      have h2' := h2
      unfold TicTacToe.cell at h2'
      simpa [List.getElem?_eq_getElem h1'] using h2'
    simp only [TicTacToe.mk.injEq, and_true, true_and]
    rw [List.set_set]
    apply list_set_self
    rw [List.getElem?_eq_getElem h1', hc]

lemma TicTacToe.turn_mem (t : TicTacToe) :
    t.turn_to_move = t.player_1 ∨ t.turn_to_move = t.player_2 := by
  unfold TicTacToe.turn_to_move
  split <;> simp

lemma TicTacToe.mem_get_all_moves {t : TicTacToe} {pos : Nat} :
    pos ∈ t.get_all_moves ↔
      pos < t.board.length ∧ t.cell pos ≠ t.player_1 ∧ t.cell pos ≠ t.player_2 := by
  unfold TicTacToe.get_all_moves
  simp [List.mem_filter, List.mem_range]

lemma WfBoard.players {t : TicTacToe} (h : WfBoard t) :
    t.player_1 = 'X' ∧ t.player_2 = 'O' := ⟨h.1, h.2.1⟩

lemma WfBoard.length_nine {t : TicTacToe} (h : WfBoard t) : t.board.length = 9 :=
  h.2.2.1

lemma WfBoard.label {t : TicTacToe} (h : WfBoard t) {i : Nat} (hi : i < 9)
    (hx : t.cell i ≠ 'X') (ho : t.cell i ≠ 'O') : t.cell i = digitChar i :=
  h.2.2.2 i hi hx ho

lemma WfBoard.make_move {t : TicTacToe} (h : WfBoard t) (mv : Nat) :
    WfBoard (t.make_move mv) := by
  obtain ⟨hp1, hp2, hlen, hlab⟩ := h
  refine ⟨hp1, hp2, by rw [TicTacToe.make_move_length, hlen], ?_⟩
  intro i hi hx ho
  by_cases him : i = mv
  · subst him
    by_cases hlt : i < t.board.length
    · rw [TicTacToe.cell_make_move_self hlt] at hx ho
      rcases t.turn_mem with ht | ht <;> rw [ht] at hx ho
      · exact absurd hp1 hx
      · exact absurd hp2 ho
    · exfalso
      rw [hlen] at hlt
      exact hlt hi
  · rw [TicTacToe.cell_make_move_ne him] at hx ho ⊢
    exact hlab i hi hx ho

lemma Reachable.wf {t : TicTacToe} (h : Reachable t) : WfBoard t := by
  induction h with
  | init => decide
  | step _ _ _ ih => exact ih.make_move _

lemma TicTacToe.game_over_onGoing {t : TicTacToe}
    (h : t.game_over = GameOver.OnGoing) :
    t.hasWin t.player_1 = false ∧ t.hasWin t.player_2 = false ∧
      t.board.any (fun c => c != t.player_1 && c != t.player_2) = true := by
  unfold TicTacToe.game_over at h
  by_cases h1 : t.hasWin t.player_1 = true
  · rw [if_pos h1] at h; cases h
  · rw [if_neg h1] at h
    by_cases h2 : t.hasWin t.player_2 = true
    · rw [if_pos h2] at h; cases h
    · rw [if_neg h2] at h
      by_cases h3 : t.board.any (fun c => c != t.player_1 && c != t.player_2) = true
      · exact ⟨by simpa using h1, by simpa using h2, h3⟩
      · rw [if_neg h3] at h; cases h

lemma TicTacToe.get_all_moves_ne_nil {t : TicTacToe}
    (h : t.game_over = GameOver.OnGoing) : t.get_all_moves ≠ [] := by
  obtain ⟨-, -, hany⟩ := t.game_over_onGoing h
  rw [List.any_eq_true] at hany
  obtain ⟨c, hc, hpred⟩ := hany
  rw [List.mem_iff_getElem] at hc
  obtain ⟨i, hi, hci⟩ := hc
  have hcell : t.cell i = c := by
    unfold TicTacToe.cell
    rw [List.getElem?_eq_getElem hi, hci]
    rfl
  have hmem : i ∈ t.get_all_moves := by
    rw [TicTacToe.mem_get_all_moves]
    refine ⟨hi, ?_, ?_⟩ <;> rw [hcell] <;> simp only [bne_iff_ne, Bool.and_eq_true] at hpred
    · exact hpred.1
    · exact hpred.2
  intro hnil
  rw [hnil] at hmem
  cases hmem

lemma filter_length_lt {α : Type} {q : α → Bool} {l : List α} {x : α}
    (hx : x ∈ l) (hq : q x = false) : (l.filter q).length < l.length := by
  induction l with
  | nil => cases hx
  | cons c rest ih =>
    rcases List.mem_cons.mp hx with h | h
    · subst h
      rw [List.filter_cons, if_neg (by simp [hq])]
      simp only [List.length_cons]
      exact Nat.lt_succ_of_le (List.length_filter_le q rest)
    · rw [List.filter_cons]
      split
      · simpa using ih h
      · simp only [List.length_cons]
        exact Nat.lt_succ_of_lt (ih h)

lemma TicTacToe.moves_decrease {t : TicTacToe} {pos : Nat}
    (h : pos ∈ t.get_all_moves) :
    (t.make_move pos).get_all_moves.length < t.get_all_moves.length := by
  have hlt := (TicTacToe.mem_get_all_moves.mp h).1
  have key : (t.make_move pos).get_all_moves
      = t.get_all_moves.filter (fun x => x != pos) := by
    unfold TicTacToe.get_all_moves
    rw [TicTacToe.make_move_length, List.filter_filter]
    apply List.filter_congr
    intro x _
    by_cases hxp : x = pos
    · subst hxp
      rw [TicTacToe.make_move_player_1, TicTacToe.make_move_player_2,
        TicTacToe.cell_make_move_self hlt]
      rcases t.turn_mem with ht | ht <;> rw [ht] <;> simp
    · rw [TicTacToe.make_move_player_1, TicTacToe.make_move_player_2,
        TicTacToe.cell_make_move_ne hxp]
      simp [hxp]
  rw [key]
  exact filter_length_lt h (by simp)

lemma TicTacToe.evaluate_terminal {t : TicTacToe}
    (h : t.game_over ≠ GameOver.OnGoing) :
    ∃ v, t.evaluate = some v ∧ scoreRange v := by
  cases hg : t.game_over with
  | OnGoing => exact absurd hg h
  | Draw => exact ⟨0, by simp [TicTacToe.evaluate, hg], Or.inr (Or.inl rfl)⟩
  | Winner c =>
    refine ⟨if c = t.player_1 then 1 else -1, by simp [TicTacToe.evaluate, hg], ?_⟩
    split
    · exact Or.inr (Or.inr rfl)
    · exact Or.inl rfl

/-! ### Restoration: the search always hands back the caller's board -/

lemma maxLoopF_restore
    {eval1 : TicTacToe → Int → Int → Option (Int × TicTacToe)} {N : Nat}
    (H : ∀ t2 a b, WfBoard t2 → t2.get_all_moves.length < N →
      ∃ r, eval1 t2 a b = some (r, t2) ∧ scoreRange r) :
    ∀ (moves : List Nat) (t : TicTacToe) (alpha beta acc : Int), WfBoard t →
      t.get_all_moves.length ≤ N →
      (∀ pos ∈ moves, pos ∈ t.get_all_moves) →
      (acc = -(2 ^ 31) ∨ scoreRange acc) →
      ∃ r, maxLoopF eval1 t moves alpha beta acc = some (r, t) ∧
        (scoreRange r ∨ (moves = [] ∧ acc = -(2 ^ 31))) := by
  intro moves
  induction moves with
  | nil =>
    intro t alpha beta acc _ _ _ hacc
    refine ⟨toI8 acc, by simp [maxLoopF], ?_⟩
    rcases hacc with h | h
    · exact Or.inr ⟨rfl, h⟩
    · exact Or.inl (by rw [scoreRange.toI8_eq h]; exact h)
  | cons pos rest ih =>
    intro t alpha beta acc hw hlen hmem hacc
    have hpos := hmem pos (List.mem_cons_self pos rest)
    obtain ⟨hplt, hpx, hpo⟩ := TicTacToe.mem_get_all_moves.mp hpos
    have hwc : WfBoard (t.make_move pos) := hw.make_move pos
    have hltc : (t.make_move pos).get_all_moves.length < N :=
      lt_of_lt_of_le (TicTacToe.moves_decrease hpos) hlen
    obtain ⟨r1, hev, hr1⟩ := H (t.make_move pos) alpha beta hwc hltc
    have hlab : t.cell pos = digitChar pos := by
      refine hw.label ?_ ?_ ?_
      · rw [← hw.length_nine]; exact hplt
      · rw [← hw.players.1]; exact hpx
      · rw [← hw.players.2]; exact hpo
    have hundo : (t.make_move pos).undo_move pos = t :=
      TicTacToe.make_undo hplt hlab
    have hacc2 : scoreRange (max acc r1) := by
      rcases hacc with h | h
      · rw [h, max_eq_right (le_trans (by norm_num) hr1.neg_128_le)]
        exact hr1
      · exact h.max_max hr1
    simp only [maxLoopF, hev, hundo]
    by_cases hbr : beta ≤ max alpha r1
    · refine ⟨toI8 (max acc r1), by rw [if_pos hbr], Or.inl ?_⟩
      rw [scoreRange.toI8_eq hacc2]
      exact hacc2
    · obtain ⟨r, hr, hd⟩ := ih t (max alpha r1) beta (max acc r1) hw hlen
        (fun q hq => hmem q (List.mem_cons_of_mem pos hq)) (Or.inr hacc2)
      refine ⟨r, by rw [if_neg hbr]; exact hr, Or.inl ?_⟩
      rcases hd with h | ⟨-, habs⟩
      · exact h
      · rw [habs] at hacc2
        rcases hacc2 with h | h | h <;> omega

lemma minLoopF_restore
    {eval1 : TicTacToe → Int → Int → Option (Int × TicTacToe)} {N : Nat}
    (H : ∀ t2 a b, WfBoard t2 → t2.get_all_moves.length < N →
      ∃ r, eval1 t2 a b = some (r, t2) ∧ scoreRange r) :
    ∀ (moves : List Nat) (t : TicTacToe) (alpha beta acc : Int), WfBoard t →
      t.get_all_moves.length ≤ N →
      (∀ pos ∈ moves, pos ∈ t.get_all_moves) →
      (acc = 2 ^ 31 - 1 ∨ scoreRange acc) →
      ∃ r, minLoopF eval1 t moves alpha beta acc = some (r, t) ∧
        (scoreRange r ∨ (moves = [] ∧ acc = 2 ^ 31 - 1)) := by
  intro moves
  induction moves with
  | nil =>
    intro t alpha beta acc _ _ _ hacc
    refine ⟨toI8 acc, by simp [minLoopF], ?_⟩
    rcases hacc with h | h
    · exact Or.inr ⟨rfl, h⟩
    · exact Or.inl (by rw [scoreRange.toI8_eq h]; exact h)
  | cons pos rest ih =>
    intro t alpha beta acc hw hlen hmem hacc
    have hpos := hmem pos (List.mem_cons_self pos rest)
    obtain ⟨hplt, hpx, hpo⟩ := TicTacToe.mem_get_all_moves.mp hpos
    have hwc : WfBoard (t.make_move pos) := hw.make_move pos
    have hltc : (t.make_move pos).get_all_moves.length < N :=
      lt_of_lt_of_le (TicTacToe.moves_decrease hpos) hlen
    obtain ⟨r1, hev, hr1⟩ := H (t.make_move pos) alpha beta hwc hltc
    have hlab : t.cell pos = digitChar pos := by
      refine hw.label ?_ ?_ ?_
      · rw [← hw.length_nine]; exact hplt
      · rw [← hw.players.1]; exact hpx
      · rw [← hw.players.2]; exact hpo
    have hundo : (t.make_move pos).undo_move pos = t :=
      TicTacToe.make_undo hplt hlab
    have hacc2 : scoreRange (min acc r1) := by
      rcases hacc with h | h
      · rw [h, min_eq_right (le_trans hr1.le_127 (by norm_num))]
        exact hr1
      · exact h.min_min hr1
    simp only [minLoopF, hev, hundo]
    by_cases hbr : min beta r1 ≤ alpha
    · refine ⟨toI8 (min acc r1), by rw [if_pos hbr], Or.inl ?_⟩
      rw [scoreRange.toI8_eq hacc2]
      exact hacc2
    · obtain ⟨r, hr, hd⟩ := ih t alpha (min beta r1) (min acc r1) hw hlen
        (fun q hq => hmem q (List.mem_cons_of_mem pos hq)) (Or.inr hacc2)
      refine ⟨r, by rw [if_neg hbr]; exact hr, Or.inl ?_⟩
      rcases hd with h | ⟨-, habs⟩
      · exact h
      · rw [habs] at hacc2
        rcases hacc2 with h | h | h <;> omega

/-- The search master lemma: with enough fuel, `minimax` returns `some`
score in `{-1, 0, 1}` TOGETHER with the caller's board, unchanged — for any
bounds, pruned or not. -/
lemma TicTacToe.minimax_restore :
    ∀ (fuel : Nat) (t : TicTacToe) (alpha beta : Int), WfBoard t →
      t.get_all_moves.length < fuel →
      ∃ r, TicTacToe.minimax fuel t alpha beta = some (r, t) ∧ scoreRange r := by
  intro fuel
  induction fuel with
  | zero => intro t _ _ _ h; exact absurd h (Nat.not_lt_zero _)
  | succ fuel ih =>
    intro t alpha beta hw hlen
    by_cases hg : t.game_over = GameOver.OnGoing
    · have hne := TicTacToe.get_all_moves_ne_nil hg
      by_cases hmax : t.turn_to_move = t.player_1
      · obtain ⟨r, hr, hd⟩ := maxLoopF_restore (N := fuel)
          (fun t2 a b hw2 hl2 => ih t2 a b hw2 hl2)
          t.get_all_moves t alpha beta (-(2 ^ 31)) hw (Nat.lt_succ_iff.mp hlen)
          (fun _ h => h) (Or.inl rfl)
        refine ⟨r, ?_, ?_⟩
        · simp only [TicTacToe.minimax, hg, if_pos hmax]
          exact hr
        · rcases hd with h | ⟨hnil, -⟩
          · exact h
          · exact absurd hnil hne
      · obtain ⟨r, hr, hd⟩ := minLoopF_restore (N := fuel)
          (fun t2 a b hw2 hl2 => ih t2 a b hw2 hl2)
          t.get_all_moves t alpha beta (2 ^ 31 - 1) hw (Nat.lt_succ_iff.mp hlen)
          (fun _ h => h) (Or.inl rfl)
        refine ⟨r, ?_, ?_⟩
        · simp only [TicTacToe.minimax, hg, if_neg hmax]
          exact hr
        · rcases hd with h | ⟨hnil, -⟩
          · exact h
          · exact absurd hnil hne
    · obtain ⟨v, hv, hrange⟩ := TicTacToe.evaluate_terminal hg
      refine ⟨v, ?_, hrange⟩
      cases hgo : t.game_over with
      | OnGoing => exact absurd hgo hg
      | Draw => simp [TicTacToe.minimax, hgo, hv]
      | Winner c => simp [TicTacToe.minimax, hgo, hv]

/-! ### The plain (unpruned) value of a move list -/

lemma plainLoopF_max_spec {pEval : TicTacToe → Option Int} :
    ∀ (moves : List Nat) (t : TicTacToe),
      (∀ pos ∈ moves, ∃ v, pEval (t.make_move pos) = some v ∧ scoreRange v) →
      moves ≠ [] →
      ∃ w, plainLoopF pEval t true moves = some w ∧ scoreRange w ∧
        (∀ pos ∈ moves, ∀ v, pEval (t.make_move pos) = some v → v ≤ w) ∧
        ∃ pos ∈ moves, pEval (t.make_move pos) = some w := by
  intro moves
  induction moves with
  | nil => intro t _ hne; exact absurd rfl hne
  | cons pos rest ih =>
    intro t hch _
    obtain ⟨v1, hv1, hv1r⟩ := hch pos (List.mem_cons_self pos rest)
    cases rest with
    | nil =>
      refine ⟨v1, by simp [plainLoopF, hv1], hv1r, ?_, pos,
        List.mem_cons_self pos [], hv1⟩
      intro q hq v hv
      rcases List.mem_cons.mp hq with h | h
      · subst h
        rw [hv1] at hv
        obtain rfl := Option.some.inj hv
        exact le_refl _
      · cases h
    | cons q rest2 =>
      obtain ⟨w2, hw2, hw2r, hub2, pos2, hpos2, hatt2⟩ :=
        ih t (fun p hp => hch p (List.mem_cons_of_mem pos hp)) (by simp)
      refine ⟨max v1 w2, ?_, hv1r.max_max hw2r, ?_, ?_⟩
      · have hstep : plainLoopF pEval t true (pos :: q :: rest2)
            = (pEval (t.make_move pos)).bind (fun v =>
                (plainLoopF pEval t true (q :: rest2)).map
                  (fun w => if true then max v w else min v w)) := rfl
        rw [hstep, hv1, hw2]
        simp
      · intro p hp v hv
        rcases List.mem_cons.mp hp with h | h
        · subst h
          rw [hv1] at hv
          cases hv
          exact le_max_left _ _
        · exact le_trans (hub2 p h v hv) (le_max_right _ _)
      · rcases max_choice v1 w2 with h | h <;> rw [h]
        · exact ⟨pos, List.mem_cons_self pos _, hv1⟩
        · exact ⟨pos2, List.mem_cons_of_mem pos hpos2, hatt2⟩

lemma plainLoopF_min_spec {pEval : TicTacToe → Option Int} :
    ∀ (moves : List Nat) (t : TicTacToe),
      (∀ pos ∈ moves, ∃ v, pEval (t.make_move pos) = some v ∧ scoreRange v) →
      moves ≠ [] →
      ∃ w, plainLoopF pEval t false moves = some w ∧ scoreRange w ∧
        (∀ pos ∈ moves, ∀ v, pEval (t.make_move pos) = some v → w ≤ v) ∧
        ∃ pos ∈ moves, pEval (t.make_move pos) = some w := by
  intro moves
  induction moves with
  | nil => intro t _ hne; exact absurd rfl hne
  | cons pos rest ih =>
    intro t hch _
    obtain ⟨v1, hv1, hv1r⟩ := hch pos (List.mem_cons_self pos rest)
    cases rest with
    | nil =>
      refine ⟨v1, by simp [plainLoopF, hv1], hv1r, ?_, pos,
        List.mem_cons_self pos [], hv1⟩
      intro q hq v hv
      rcases List.mem_cons.mp hq with h | h
      · subst h
        rw [hv1] at hv
        obtain rfl := Option.some.inj hv
        exact le_refl _
      · cases h
    | cons q rest2 =>
      obtain ⟨w2, hw2, hw2r, hlb2, pos2, hpos2, hatt2⟩ :=
        ih t (fun p hp => hch p (List.mem_cons_of_mem pos hp)) (by simp)
      refine ⟨min v1 w2, ?_, hv1r.min_min hw2r, ?_, ?_⟩
      · have hstep : plainLoopF pEval t false (pos :: q :: rest2)
            = (pEval (t.make_move pos)).bind (fun v =>
                (plainLoopF pEval t false (q :: rest2)).map
                  (fun w => if false then max v w else min v w)) := rfl
        rw [hstep, hv1, hw2]
        simp
      · intro p hp v hv
        rcases List.mem_cons.mp hp with h | h
        · subst h
          rw [hv1] at hv
          cases hv
          exact min_le_left _ _
        · exact le_trans (min_le_right _ _) (hlb2 p h v hv)
      · rcases min_choice v1 w2 with h | h <;> rw [h]
        · exact ⟨pos, List.mem_cons_self pos _, hv1⟩
        · exact ⟨pos2, List.mem_cons_of_mem pos hpos2, hatt2⟩

/-! ### Alpha-beta against the plain value -/

lemma maxLoopF_bounds
    {eval1 : TicTacToe → Int → Int → Option (Int × TicTacToe)}
    {pEval : TicTacToe → Option Int} {N : Nat}
    (H : ∀ t2 a b, WfBoard t2 → t2.get_all_moves.length < N → a < b →
      ∃ r v, eval1 t2 a b = some (r, t2) ∧ pEval t2 = some v ∧
        scoreRange r ∧ scoreRange v ∧ min v b ≤ r ∧ r ≤ max v a) :
    ∀ (moves : List Nat) (t : TicTacToe) (alpha beta acc : Int), WfBoard t →
      t.get_all_moves.length ≤ N →
      (∀ pos ∈ moves, pos ∈ t.get_all_moves) →
      moves ≠ [] →
      alpha < beta →
      (acc = -(2 ^ 31) ∨ scoreRange acc) →
      ∃ r w, maxLoopF eval1 t moves alpha beta acc = some (r, t) ∧
        plainLoopF pEval t true moves = some w ∧
        scoreRange r ∧ scoreRange w ∧ acc ≤ r ∧
        min w beta ≤ r ∧ r ≤ max (max w alpha) acc := by
  intro moves
  induction moves with
  | nil => intro t alpha beta acc _ _ _ hne; exact absurd rfl hne
  | cons pos rest ih =>
    intro t alpha beta acc hw hlen hmem _ hab hacc
    have hpos := hmem pos (List.mem_cons_self pos rest)
    obtain ⟨hplt, hpx, hpo⟩ := TicTacToe.mem_get_all_moves.mp hpos
    have hwc : WfBoard (t.make_move pos) := hw.make_move pos
    have hltc : (t.make_move pos).get_all_moves.length < N :=
      lt_of_lt_of_le (TicTacToe.moves_decrease hpos) hlen
    obtain ⟨r1, v1, hev, hpv1, hr1, hv1r, hr1lb, hr1ub⟩ :=
      H (t.make_move pos) alpha beta hwc hltc hab
    have hlab : t.cell pos = digitChar pos := by
      refine hw.label ?_ ?_ ?_
      · rw [← hw.length_nine]; exact hplt
      · rw [← hw.players.1]; exact hpx
      · rw [← hw.players.2]; exact hpo
    have hundo : (t.make_move pos).undo_move pos = t :=
      TicTacToe.make_undo hplt hlab
    have hacc2 : scoreRange (max acc r1) := by
      rcases hacc with h | h
      · rw [h, max_eq_right (le_trans (by norm_num) hr1.neg_128_le)]
        exact hr1
      · exact h.max_max hr1
    have hstep2 : maxLoopF eval1 t (pos :: rest) alpha beta acc
        = (if beta ≤ max alpha r1 then some (toI8 (max acc r1), t)
           else maxLoopF eval1 t rest (max alpha r1) beta (max acc r1)) := by
      simp only [maxLoopF, hev, hundo]
    rw [hstep2, scoreRange.toI8_eq hacc2]
    cases rest with
    | nil =>
      have hplain : plainLoopF pEval t true [pos] = some v1 := by
        simp [plainLoopF, hpv1]
      have hcollapse : (if beta ≤ max alpha r1 then some (max acc r1, t)
          else maxLoopF eval1 t [] (max alpha r1) beta (max acc r1))
          = some (max acc r1, t) := by
        split
        · rfl
        · simp [maxLoopF, scoreRange.toI8_eq hacc2]
      rw [hcollapse]
      refine ⟨max acc r1, v1, rfl, hplain, hacc2, hv1r, ?_, ?_, ?_⟩ <;>
        simp only [le_max_iff, max_le_iff, min_le_iff,
          le_min_iff] at hr1lb hr1ub ⊢ <;> omega
    | cons q rest2 =>
      have hchildren : ∀ p ∈ q :: rest2,
          ∃ v, pEval (t.make_move p) = some v ∧ scoreRange v := by
        intro p hp
        have hpmem := hmem p (List.mem_cons_of_mem pos hp)
        obtain ⟨r2, v2, -, hpv2, -, hv2r, -, -⟩ :=
          H (t.make_move p) alpha beta (hw.make_move p)
            (lt_of_lt_of_le (TicTacToe.moves_decrease hpmem) hlen) hab
        exact ⟨v2, hpv2, hv2r⟩
      by_cases hbr : beta ≤ max alpha r1
      · obtain ⟨w2, hw2, hw2r, -, -⟩ :=
          plainLoopF_max_spec (q :: rest2) t hchildren (by simp)
        have hplain : plainLoopF pEval t true (pos :: q :: rest2)
            = some (max v1 w2) := by
          have hstep : plainLoopF pEval t true (pos :: q :: rest2)
              = (pEval (t.make_move pos)).bind (fun v =>
                  (plainLoopF pEval t true (q :: rest2)).map
                    (fun w => if true then max v w else min v w)) := rfl
          rw [hstep, hpv1, hw2]
          simp
        rw [if_pos hbr]
        refine ⟨max acc r1, max v1 w2, rfl, hplain, hacc2,
          hv1r.max_max hw2r, ?_, ?_, ?_⟩ <;>
          simp only [le_max_iff, max_le_iff, min_le_iff,
            le_min_iff] at hr1lb hr1ub hbr ⊢ <;> omega
      · have hab2 : max alpha r1 < beta := not_le.mp hbr
        obtain ⟨r, w2, hr, hw2, hrr, hw2r, haccr, hminr, hrub⟩ :=
          ih t (max alpha r1) beta (max acc r1) hw hlen
            (fun p hp => hmem p (List.mem_cons_of_mem pos hp)) (by simp)
            hab2 (Or.inr hacc2)
        have hplain : plainLoopF pEval t true (pos :: q :: rest2)
            = some (max v1 w2) := by
          have hstep : plainLoopF pEval t true (pos :: q :: rest2)
              = (pEval (t.make_move pos)).bind (fun v =>
                  (plainLoopF pEval t true (q :: rest2)).map
                    (fun w => if true then max v w else min v w)) := rfl
          rw [hstep, hpv1, hw2]
          simp
        rw [if_neg hbr]
        refine ⟨r, max v1 w2, hr, hplain, hrr, hv1r.max_max hw2r,
          ?_, ?_, ?_⟩ <;>
          simp only [le_max_iff, max_le_iff, min_le_iff,
            le_min_iff] at hr1lb hr1ub haccr hminr hrub ⊢ <;> omega

lemma minLoopF_bounds
    {eval1 : TicTacToe → Int → Int → Option (Int × TicTacToe)}
    {pEval : TicTacToe → Option Int} {N : Nat}
    (H : ∀ t2 a b, WfBoard t2 → t2.get_all_moves.length < N → a < b →
      ∃ r v, eval1 t2 a b = some (r, t2) ∧ pEval t2 = some v ∧
        scoreRange r ∧ scoreRange v ∧ min v b ≤ r ∧ r ≤ max v a) :
    ∀ (moves : List Nat) (t : TicTacToe) (alpha beta acc : Int), WfBoard t →
      t.get_all_moves.length ≤ N →
      (∀ pos ∈ moves, pos ∈ t.get_all_moves) →
      moves ≠ [] →
      alpha < beta →
      (acc = 2 ^ 31 - 1 ∨ scoreRange acc) →
      ∃ r w, minLoopF eval1 t moves alpha beta acc = some (r, t) ∧
        plainLoopF pEval t false moves = some w ∧
        scoreRange r ∧ scoreRange w ∧ r ≤ acc ∧
        r ≤ max w alpha ∧ min (min w beta) acc ≤ r := by
  intro moves
  induction moves with
  | nil => intro t alpha beta acc _ _ _ hne; exact absurd rfl hne
  | cons pos rest ih =>
    intro t alpha beta acc hw hlen hmem _ hab hacc
    have hpos := hmem pos (List.mem_cons_self pos rest)
    obtain ⟨hplt, hpx, hpo⟩ := TicTacToe.mem_get_all_moves.mp hpos
    have hwc : WfBoard (t.make_move pos) := hw.make_move pos
    have hltc : (t.make_move pos).get_all_moves.length < N :=
      lt_of_lt_of_le (TicTacToe.moves_decrease hpos) hlen
    obtain ⟨r1, v1, hev, hpv1, hr1, hv1r, hr1lb, hr1ub⟩ :=
      H (t.make_move pos) alpha beta hwc hltc hab
    have hlab : t.cell pos = digitChar pos := by
      refine hw.label ?_ ?_ ?_
      · rw [← hw.length_nine]; exact hplt
      · rw [← hw.players.1]; exact hpx
      · rw [← hw.players.2]; exact hpo
    have hundo : (t.make_move pos).undo_move pos = t :=
      TicTacToe.make_undo hplt hlab
    have hacc2 : scoreRange (min acc r1) := by
      rcases hacc with h | h
      · rw [h, min_eq_right (le_trans hr1.le_127 (by norm_num))]
        exact hr1
      · exact h.min_min hr1
    have hstep2 : minLoopF eval1 t (pos :: rest) alpha beta acc
        = (if min beta r1 ≤ alpha then some (toI8 (min acc r1), t)
           else minLoopF eval1 t rest alpha (min beta r1) (min acc r1)) := by
      simp only [minLoopF, hev, hundo]
    rw [hstep2, scoreRange.toI8_eq hacc2]
    cases rest with
    | nil =>
      have hplain : plainLoopF pEval t false [pos] = some v1 := by
        simp [plainLoopF, hpv1]
      have hcollapse : (if min beta r1 ≤ alpha then some (min acc r1, t)
          else minLoopF eval1 t [] alpha (min beta r1) (min acc r1))
          = some (min acc r1, t) := by
        split
        · rfl
        · simp [minLoopF, scoreRange.toI8_eq hacc2]
      rw [hcollapse]
      refine ⟨min acc r1, v1, rfl, hplain, hacc2, hv1r, ?_, ?_, ?_⟩ <;>
        simp only [le_max_iff, max_le_iff, min_le_iff,
          le_min_iff] at hr1lb hr1ub ⊢ <;> omega
    | cons q rest2 =>
      have hchildren : ∀ p ∈ q :: rest2,
          ∃ v, pEval (t.make_move p) = some v ∧ scoreRange v := by
        intro p hp
        have hpmem := hmem p (List.mem_cons_of_mem pos hp)
        obtain ⟨r2, v2, -, hpv2, -, hv2r, -, -⟩ :=
          H (t.make_move p) alpha beta (hw.make_move p)
            (lt_of_lt_of_le (TicTacToe.moves_decrease hpmem) hlen) hab
        exact ⟨v2, hpv2, hv2r⟩
      by_cases hbr : min beta r1 ≤ alpha
      · obtain ⟨w2, hw2, hw2r, -, -⟩ :=
          plainLoopF_min_spec (q :: rest2) t hchildren (by simp)
        have hplain : plainLoopF pEval t false (pos :: q :: rest2)
            = some (min v1 w2) := by
          have hstep : plainLoopF pEval t false (pos :: q :: rest2)
              = (pEval (t.make_move pos)).bind (fun v =>
                  (plainLoopF pEval t false (q :: rest2)).map
                    (fun w => if false then max v w else min v w)) := rfl
          rw [hstep, hpv1, hw2]
          simp
        rw [if_pos hbr]
        refine ⟨min acc r1, min v1 w2, rfl, hplain, hacc2,
          hv1r.min_min hw2r, ?_, ?_, ?_⟩ <;>
          simp only [le_max_iff, max_le_iff, min_le_iff,
            le_min_iff] at hr1lb hr1ub hbr ⊢ <;> omega
      · have hab2 : alpha < min beta r1 := not_le.mp hbr
        obtain ⟨r, w2, hr, hw2, hrr, hw2r, haccr, hrub, hminr⟩ :=
          ih t alpha (min beta r1) (min acc r1) hw hlen
            (fun p hp => hmem p (List.mem_cons_of_mem pos hp)) (by simp)
            hab2 (Or.inr hacc2)
        have hplain : plainLoopF pEval t false (pos :: q :: rest2)
            = some (min v1 w2) := by
          have hstep : plainLoopF pEval t false (pos :: q :: rest2)
              = (pEval (t.make_move pos)).bind (fun v =>
                  (plainLoopF pEval t false (q :: rest2)).map
                    (fun w => if false then max v w else min v w)) := rfl
          rw [hstep, hpv1, hw2]
          simp
        rw [if_neg hbr]
        refine ⟨r, min v1 w2, hr, hplain, hrr, hv1r.min_min hw2r,
          ?_, ?_, ?_⟩ <;>
          simp only [le_max_iff, max_le_iff, min_le_iff,
            le_min_iff] at hr1lb hr1ub haccr hminr hrub ⊢ <;> omega

/-- Alpha-beta master lemma: with enough fuel and a non-degenerate window
`alpha < beta`, `minimax` returns `some`, restores the board, and its score
`r` brackets the plain (unpruned) minimax value `v` of the same board:
`min v beta ≤ r ≤ max v alpha`.  In particular `r = v` whenever
`alpha ≤ v ≤ beta`. -/
lemma TicTacToe.minimax_bounds :
    ∀ (fuel : Nat) (t : TicTacToe) (alpha beta : Int), WfBoard t →
      t.get_all_moves.length < fuel → alpha < beta →
      ∃ r v, TicTacToe.minimax fuel t alpha beta = some (r, t) ∧
        plainMinimax fuel t = some v ∧ scoreRange r ∧ scoreRange v ∧
        min v beta ≤ r ∧ r ≤ max v alpha := by
  intro fuel
  induction fuel with
  | zero => intro t _ _ _ h _; exact absurd h (Nat.not_lt_zero _)
  | succ fuel ih =>
    intro t alpha beta hw hlen hab
    by_cases hg : t.game_over = GameOver.OnGoing
    · have hne := TicTacToe.get_all_moves_ne_nil hg
      by_cases hmax : t.turn_to_move = t.player_1
      · obtain ⟨r, w, hr, hplain, hrr, hwr, haccle, hminr, hrub⟩ :=
          maxLoopF_bounds (N := fuel)
            (fun t2 a b hw2 hl2 hab2 => ih t2 a b hw2 hl2 hab2)
            t.get_all_moves t alpha beta (-(2 ^ 31)) hw
            (Nat.lt_succ_iff.mp hlen) (fun _ h => h) hne hab (Or.inl rfl)
        refine ⟨r, w, ?_, ?_, hrr, hwr, hminr, ?_⟩
        · simp only [TicTacToe.minimax, hg, if_pos hmax]
          exact hr
        · simp only [plainMinimax, hg, if_pos hmax]
          exact hplain
        · have hwn : w = -1 ∨ w = 0 ∨ w = 1 := hwr
          have hrn : r = -1 ∨ r = 0 ∨ r = 1 := hrr
          simp only [le_max_iff, max_le_iff] at hrub ⊢
          omega
      · obtain ⟨r, w, hr, hplain, hrr, hwr, haccle, hrub, hminr⟩ :=
          minLoopF_bounds (N := fuel)
            (fun t2 a b hw2 hl2 hab2 => ih t2 a b hw2 hl2 hab2)
            t.get_all_moves t alpha beta (2 ^ 31 - 1) hw
            (Nat.lt_succ_iff.mp hlen) (fun _ h => h) hne hab (Or.inl rfl)
        refine ⟨r, w, ?_, ?_, hrr, hwr, ?_, hrub⟩
        · simp only [TicTacToe.minimax, hg, if_neg hmax]
          exact hr
        · simp only [plainMinimax, hg, if_neg hmax]
          exact hplain
        · have hwn : w = -1 ∨ w = 0 ∨ w = 1 := hwr
          have hrn : r = -1 ∨ r = 0 ∨ r = 1 := hrr
          simp only [min_le_iff, le_min_iff] at hminr ⊢
          omega
    · obtain ⟨v, hv, hrange⟩ := TicTacToe.evaluate_terminal hg
      refine ⟨v, v, ?_, ?_, hrange, hrange, min_le_left _ _, le_max_left _ _⟩
      · cases hgo : t.game_over with
        | OnGoing => exact absurd hgo hg
        | Draw => simp [TicTacToe.minimax, hgo, hv]
        | Winner c => simp [TicTacToe.minimax, hgo, hv]
      · cases hgo : t.game_over with
        | OnGoing => exact absurd hgo hg
        | Draw => simp only [plainMinimax, hgo]; exact hv
        | Winner c => simp only [plainMinimax, hgo]; exact hv

/-! ### Selection semantics of `max_by_key` / `min_by_key` -/

lemma head_le_of_decomp {x r : Int × Int} {rest l1 l2 : List (Int × Int)}
    (heq : x :: rest = l1 ++ r :: l2) (hub : ∀ q ∈ l1, q.2 ≤ r.2)
    (hlt : ∀ q ∈ l2, q.2 < r.2) : x.2 ≤ r.2 := by
  have hx : x ∈ l1 ++ r :: l2 := by
    rw [← heq]
    exact List.mem_cons_self x rest
  rcases List.mem_append.mp hx with h | h
  · exact hub x h
  · rcases List.mem_cons.mp h with h | h
    · rw [h]
    · exact le_of_lt (hlt x h)

lemma head_ge_of_decomp {x r : Int × Int} {rest l1 l2 : List (Int × Int)}
    (heq : x :: rest = l1 ++ r :: l2) (hlb : ∀ q ∈ l1, r.2 < q.2)
    (hle : ∀ q ∈ l2, r.2 ≤ q.2) : r.2 ≤ x.2 := by
  have hx : x ∈ l1 ++ r :: l2 := by
    rw [← heq]
    exact List.mem_cons_self x rest
  rcases List.mem_append.mp hx with h | h
  · exact le_of_lt (hlb x h)
  · rcases List.mem_cons.mp h with h | h
    · rw [h]
    · exact hle x h

lemma foldl_last_max :
    ∀ (rest : List (Int × Int)) (acc : Int × Int),
      IsLastMax (acc :: rest)
        (rest.foldl (fun a q => if a.2 ≤ q.2 then q else a) acc) := by
  intro rest
  induction rest with
  | nil =>
    intro acc
    exact ⟨[], [], rfl, by simp, by simp⟩
  | cons q rest ih =>
    intro acc
    rw [List.foldl_cons]
    by_cases hle : acc.2 ≤ q.2
    · rw [if_pos hle]
      obtain ⟨l1, l2, heq, hub, hlt⟩ := ih q
      have hq : q.2 ≤ (rest.foldl (fun a q => if a.2 ≤ q.2 then q else a) q).2 :=
        head_le_of_decomp heq hub hlt
    -- prepend `acc` to the earlier half
      refine ⟨acc :: l1, l2, by rw [List.cons_append, heq], ?_, hlt⟩
      intro p hp
      rcases List.mem_cons.mp hp with h | h
      · rw [h]
        exact le_trans hle hq
      · exact hub p h
    · rw [if_neg hle]
      obtain ⟨l1, l2, heq, hub, hlt⟩ := ih acc
      cases l1 with
      | nil =>
        rw [List.nil_append] at heq
        obtain ⟨h1, h2⟩ := List.cons.inj heq
        refine ⟨[], q :: l2, ?_, by simp, ?_⟩
        · rw [List.nil_append, ← h1, ← h2]
        · intro p hp
          rcases List.mem_cons.mp hp with h | h
          · rw [h, ← h1]
            exact lt_of_not_le hle
          · exact hlt p h
      | cons a l1' =>
        rw [List.cons_append] at heq
        obtain ⟨h1, h2⟩ := List.cons.inj heq
        have haccr : acc.2 ≤ (rest.foldl (fun a q => if a.2 ≤ q.2 then q else a) acc).2 := by
          have hh := hub a (List.mem_cons_self a l1')
          rw [← h1] at hh
          exact hh
        refine ⟨acc :: q :: l1', l2, ?_, ?_, hlt⟩
        · rw [List.cons_append, List.cons_append, ← h2]
        · intro p hp
          rcases List.mem_cons.mp hp with h | h
          · rw [h]
            exact haccr
          · rcases List.mem_cons.mp h with h3 | h3
            · rw [h3]
              exact le_trans (le_of_lt (lt_of_not_le hle)) haccr
            · exact hub p (List.mem_cons_of_mem a h3)

lemma foldl_first_min :
    ∀ (rest : List (Int × Int)) (acc : Int × Int),
      IsFirstMin (acc :: rest)
        (rest.foldl (fun a q => if q.2 < a.2 then q else a) acc) := by
  intro rest
  induction rest with
  | nil =>
    intro acc
    exact ⟨[], [], rfl, by simp, by simp⟩
  | cons q rest ih =>
    intro acc
    rw [List.foldl_cons]
    by_cases hlt0 : q.2 < acc.2
    · rw [if_pos hlt0]
      obtain ⟨l1, l2, heq, hlb, hle⟩ := ih q
      have hq : (rest.foldl (fun a q => if q.2 < a.2 then q else a) q).2 ≤ q.2 :=
        head_ge_of_decomp heq hlb hle
      refine ⟨acc :: l1, l2, by rw [List.cons_append, heq], ?_, hle⟩
      intro p hp
      rcases List.mem_cons.mp hp with h | h
      · rw [h]
        exact lt_of_le_of_lt hq hlt0
      · exact hlb p h
    · rw [if_neg hlt0]
      obtain ⟨l1, l2, heq, hlb, hle⟩ := ih acc
      cases l1 with
      | nil =>
        rw [List.nil_append] at heq
        obtain ⟨h1, h2⟩ := List.cons.inj heq
        refine ⟨[], q :: l2, ?_, by simp, ?_⟩
        · rw [List.nil_append, ← h1, ← h2]
        · intro p hp
          rcases List.mem_cons.mp hp with h | h
          · rw [h, ← h1]
            exact le_of_not_lt hlt0
          · exact hle p h
      | cons a l1' =>
        rw [List.cons_append] at heq
        obtain ⟨h1, h2⟩ := List.cons.inj heq
        have haccr : (rest.foldl (fun a q => if q.2 < a.2 then q else a) acc).2 < acc.2 := by
          have hh := hlb a (List.mem_cons_self a l1')
          rw [← h1] at hh
          exact hh
        refine ⟨acc :: q :: l1', l2, ?_, ?_, hle⟩
        · rw [List.cons_append, List.cons_append, ← h2]
        · intro p hp
          rcases List.mem_cons.mp hp with h | h
          · rw [h]
            exact haccr
          · rcases List.mem_cons.mp h with h3 | h3
            · rw [h3]
              exact lt_of_lt_of_le haccr (le_of_not_lt hlt0)
            · exact hlb p (List.mem_cons_of_mem a h3)

lemma maxByKeyLast_spec {l : List (Int × Int)} {pr : Int × Int}
    (h : maxByKeyLast l = some pr) : IsLastMax l pr := by
  cases l with
  | nil => cases h
  | cons p rest =>
    unfold maxByKeyLast at h
    obtain rfl := Option.some.inj h
    exact foldl_last_max rest p

lemma minByKeyFirst_spec {l : List (Int × Int)} {pr : Int × Int}
    (h : minByKeyFirst l = some pr) : IsFirstMin l pr := by
  cases l with
  | nil => cases h
  | cons p rest =>
    unfold minByKeyFirst at h
    obtain rfl := Option.some.inj h
    exact foldl_first_min rest p

lemma isLastMax_mem {pairs : List (Int × Int)} {pr : Int × Int}
    (h : IsLastMax pairs pr) : pr ∈ pairs := by
  obtain ⟨l1, l2, heq, -, -⟩ := h
  rw [heq]
  exact List.mem_append.mpr (Or.inr (List.mem_cons_self pr l2))

lemma isFirstMin_mem {pairs : List (Int × Int)} {pr : Int × Int}
    (h : IsFirstMin pairs pr) : pr ∈ pairs := by
  obtain ⟨l1, l2, heq, -, -⟩ := h
  rw [heq]
  exact List.mem_append.mpr (Or.inr (List.mem_cons_self pr l2))

/-! ### The `best_move` evaluation loop -/

lemma bmLoopF_spec
    {eval1 : TicTacToe → Int → Int → Option (Int × TicTacToe)} {N : Nat}
    (H : ∀ t2 a b, WfBoard t2 → t2.get_all_moves.length < N →
      ∃ r, eval1 t2 a b = some (r, t2) ∧ scoreRange r) :
    ∀ (moves : List Nat) (t : TicTacToe), WfBoard t →
      t.get_all_moves.length ≤ N →
      (∀ pos ∈ moves, pos ∈ t.get_all_moves) →
      ∃ pairs, bmLoopF eval1 t moves = some (pairs, t) ∧
        pairs.map Prod.fst = moves.map (fun pos => ((pos : Nat) : Int)) ∧
        ∀ pr ∈ pairs, scoreRange pr.2 := by
  intro moves
  induction moves with
  | nil =>
    intro t _ _ _
    exact ⟨[], by simp [bmLoopF], by simp, by simp⟩
  | cons pos rest ih =>
    intro t hw hlen hmem
    have hpos := hmem pos (List.mem_cons_self pos rest)
    obtain ⟨hplt, hpx, hpo⟩ := TicTacToe.mem_get_all_moves.mp hpos
    obtain ⟨r1, hev, hr1⟩ := H (t.make_move pos) (-128) 127 (hw.make_move pos)
      (lt_of_lt_of_le (TicTacToe.moves_decrease hpos) hlen)
    have hlab : t.cell pos = digitChar pos := by
      refine hw.label ?_ ?_ ?_
      · rw [← hw.length_nine]; exact hplt
      · rw [← hw.players.1]; exact hpx
      · rw [← hw.players.2]; exact hpo
    have hundo : (t.make_move pos).undo_move pos = t :=
      TicTacToe.make_undo hplt hlab
    obtain ⟨pairs, hrec, hfst, hrange⟩ := ih t hw hlen
      (fun p hp => hmem p (List.mem_cons_of_mem pos hp))
    have hp9 : pos < 9 := by
      rw [← hw.length_nine]
      exact hplt
    have hcast : toI8 ((pos : Nat) : Int) = ((pos : Nat) : Int) := by
      have hle9 : ((pos : Nat) : Int) < 9 := by exact_mod_cast hp9
      have hge : (0 : Int) ≤ ((pos : Nat) : Int) := Int.ofNat_nonneg pos
      exact toI8_id (by omega) (by omega)
    refine ⟨(toI8 ((pos : Nat) : Int), r1) :: pairs, ?_, ?_, ?_⟩
    · simp [bmLoopF, hev, hundo, hrec]
    · simp only [List.map_cons, hfst, hcast]
    · intro pr hpr
      rcases List.mem_cons.mp hpr with h | h
      · rw [h]
        exact hr1
      · exact hrange pr h

/-! ### The win invariant of reachable boards -/

lemma TicTacToe.lineWin_all {t : TicTacToe} {player : Char}
    {wp : Nat × Nat × Nat} (h : t.lineWin player wp = true) :
    t.cell wp.1 = player ∧ t.cell wp.2.1 = player ∧ t.cell wp.2.2 = player := by
  unfold TicTacToe.lineWin at h
  simp only [Bool.and_eq_true, beq_iff_eq] at h
  obtain ⟨⟨h1, h2⟩, h3⟩ := h
  exact ⟨h1.symm, by rw [← h2, h1.symm], by rw [← h3, ← h2, h1.symm]⟩

lemma TicTacToe.hasWin_make_move_other {t : TicTacToe} {mv : Nat} {c : Char}
    (hlt : mv < t.board.length) (hc : t.turn_to_move ≠ c)
    (h : t.hasWin c = false) : (t.make_move mv).hasWin c = false := by
  by_contra hny
  rw [Bool.not_eq_false] at hny
  unfold TicTacToe.hasWin at hny
  rw [List.any_eq_true] at hny
  obtain ⟨wp, hwp, hline⟩ := hny
  obtain ⟨h1, h2, h3⟩ := TicTacToe.lineWin_all hline
  have hne1 : wp.1 ≠ mv := by
    intro he
    rw [he, TicTacToe.cell_make_move_self hlt] at h1
    exact hc h1
  have hne2 : wp.2.1 ≠ mv := by
    intro he
    rw [he, TicTacToe.cell_make_move_self hlt] at h2
    exact hc h2
  have hne3 : wp.2.2 ≠ mv := by
    intro he
    rw [he, TicTacToe.cell_make_move_self hlt] at h3
    exact hc h3
  rw [TicTacToe.cell_make_move_ne hne1] at h1
  rw [TicTacToe.cell_make_move_ne hne2] at h2
  rw [TicTacToe.cell_make_move_ne hne3] at h3
  have : t.hasWin c = true := by
    unfold TicTacToe.hasWin
    rw [List.any_eq_true]
    refine ⟨wp, hwp, ?_⟩
    unfold TicTacToe.lineWin
    simp [h1, h2, h3]
  rw [this] at h
  cases h

/-! ### Agreement of the packed board with the `List Char` board -/

lemma encC_lt_four (c : Char) : encC c < 4 := by
  unfold encC
  split
  · omega
  · split <;> omega

lemma cellN_encB : ∀ (l : List Char) (i : Nat), i < l.length →
    cellN (encB l) i = encC ((l[i]?).getD ' ') := by
  intro l
  induction l with
  | nil => intro i hi; cases hi
  | cons c rest ih =>
    intro i hi
    cases i with
    | zero =>
      show (encC c + 4 * encB rest) / 4 ^ 0 % 4 = _
      rw [pow_zero, Nat.div_one, Nat.add_mul_mod_self_left,
        Nat.mod_eq_of_lt (encC_lt_four c)]
      simp
    | succ j =>
      show (encC c + 4 * encB rest) / 4 ^ (j + 1) % 4 = _
      have h4 : (4 : Nat) ^ (j + 1) = 4 * 4 ^ j := by
        rw [pow_succ]
        omega
      rw [h4, ← Nat.div_div_eq_div_mul, Nat.add_mul_div_left _ _
        (by omega : (0 : Nat) < 4), Nat.div_eq_of_lt (encC_lt_four c)]
      simpa using ih j (Nat.lt_of_succ_lt_succ hi)

lemma encB_set : ∀ (l : List Char) (i : Nat) (c : Char), i < l.length →
    encC ((l[i]?).getD ' ') = 0 →
    encB (l.set i c) = putN (encB l) i (encC c) := by
  intro l
  induction l with
  | nil => intro i c hi; cases hi
  | cons d rest ih =>
    intro i c hi hz
    cases i with
    | zero =>
      simp only [List.getElem?_cons_zero, Option.getD_some] at hz
      show encC c + 4 * encB rest = (encC d + 4 * encB rest) + encC c * 4 ^ 0
      rw [hz, pow_zero]
      omega
    | succ j =>
      simp only [List.getElem?_cons_succ] at hz
      show encC d + 4 * encB (rest.set j c)
        = (encC d + 4 * encB rest) + encC c * 4 ^ (j + 1)
      rw [ih j c (Nat.lt_of_succ_lt_succ hi) hz]
      show encC d + 4 * (encB rest + encC c * 4 ^ j) = _
      have h4 : (4 : Nat) ^ (j + 1) = 4 * 4 ^ j := by
        rw [pow_succ]
        omega
      rw [h4]
      ring

lemma encC_beq_one (c : Char) : (encC c == 1) = (c == 'X') := by
  by_cases h : c = 'X'
  · simp [encC, h]
  · by_cases h2 : c = 'O' <;> simp [encC, h, h2]

lemma encC_beq_two (c : Char) : (encC c == 2) = (c == 'O') := by
  by_cases h : c = 'X'
  · simp [encC, h]
  · by_cases h2 : c = 'O' <;> simp [encC, h, h2]

lemma encC_bne_zero (c : Char) : (encC c != 0) = (c == 'X' || c == 'O') := by
  by_cases h : c = 'X'
  · simp [encC, h]
  · by_cases h2 : c = 'O' <;> simp [encC, h, h2]

lemma encC_eq_zero_iff (c : Char) : encC c = 0 ↔ (c ≠ 'X' ∧ c ≠ 'O') := by
  by_cases h : c = 'X'
  · simp [encC, h]
  · by_cases h2 : c = 'O' <;> simp [encC, h, h2]

lemma encC_beq_zero (c : Char) : (encC c == 0) = (c != 'X' && c != 'O') := by
  by_cases h : c = 'X'
  · simp [encC, h]
  · by_cases h2 : c = 'O' <;> simp [encC, h, h2]

lemma chainBridge (p a b c : Char) :
    ((a == p && b == p) && c == p) = ((p == a && a == b) && b == c) := by
  rw [Bool.eq_iff_iff]
  simp only [Bool.and_eq_true, beq_iff_eq]
  constructor
  · rintro ⟨⟨rfl, rfl⟩, rfl⟩
    exact ⟨⟨rfl, rfl⟩, rfl⟩
  · rintro ⟨⟨rfl, rfl⟩, rfl⟩
    exact ⟨⟨rfl, rfl⟩, rfl⟩

lemma exists_nine : ∀ (l : List Char), l.length = 9 →
    ∃ c0 c1 c2 c3 c4 c5 c6 c7 c8,
      l = [c0, c1, c2, c3, c4, c5, c6, c7, c8] := by
  intro l h
  match l, h with
  | [c0, c1, c2, c3, c4, c5, c6, c7, c8], _ =>
    exact ⟨c0, c1, c2, c3, c4, c5, c6, c7, c8, rfl⟩

lemma TicTacToe.cellN_cell {t : TicTacToe} (h9 : t.board.length = 9) {i : Nat}
    (hi : i < 9) : cellN (encB t.board) i = encC (t.cell i) :=
  cellN_encB t.board i (by omega)

lemma lineN_lineWinX {t : TicTacToe} (h9 : t.board.length = 9)
    {i j k : Nat} (hi : i < 9) (hj : j < 9) (hk : k < 9) :
    lineN (encB t.board) 1 i j k = t.lineWin 'X' (i, j, k) := by
  unfold lineN TicTacToe.lineWin
  rw [TicTacToe.cellN_cell h9 hi, TicTacToe.cellN_cell h9 hj,
    TicTacToe.cellN_cell h9 hk]
  dsimp only
  rw [encC_beq_one, encC_beq_one, encC_beq_one]
  exact chainBridge 'X' (t.cell i) (t.cell j) (t.cell k)

lemma lineN_lineWinO {t : TicTacToe} (h9 : t.board.length = 9)
    {i j k : Nat} (hi : i < 9) (hj : j < 9) (hk : k < 9) :
    lineN (encB t.board) 2 i j k = t.lineWin 'O' (i, j, k) := by
  unfold lineN TicTacToe.lineWin
  rw [TicTacToe.cellN_cell h9 hi, TicTacToe.cellN_cell h9 hj,
    TicTacToe.cellN_cell h9 hk]
  dsimp only
  rw [encC_beq_two, encC_beq_two, encC_beq_two]
  exact chainBridge 'O' (t.cell i) (t.cell j) (t.cell k)

lemma winN_hasWinX {t : TicTacToe} (h9 : t.board.length = 9) :
    winN (encB t.board) 1 = t.hasWin 'X' := by
  unfold winN TicTacToe.hasWin winning_positions
  simp only [List.any_cons, List.any_nil, Bool.or_false]
  rw [lineN_lineWinX h9 (by omega) (by omega) (by omega),
    lineN_lineWinX h9 (by omega) (by omega) (by omega),
    lineN_lineWinX h9 (by omega) (by omega) (by omega),
    lineN_lineWinX h9 (by omega) (by omega) (by omega),
    lineN_lineWinX h9 (by omega) (by omega) (by omega),
    lineN_lineWinX h9 (by omega) (by omega) (by omega),
    lineN_lineWinX h9 (by omega) (by omega) (by omega),
    lineN_lineWinX h9 (by omega) (by omega) (by omega)]
  simp [Bool.or_assoc]

lemma winN_hasWinO {t : TicTacToe} (h9 : t.board.length = 9) :
    winN (encB t.board) 2 = t.hasWin 'O' := by
  unfold winN TicTacToe.hasWin winning_positions
  simp only [List.any_cons, List.any_nil, Bool.or_false]
  rw [lineN_lineWinO h9 (by omega) (by omega) (by omega),
    lineN_lineWinO h9 (by omega) (by omega) (by omega),
    lineN_lineWinO h9 (by omega) (by omega) (by omega),
    lineN_lineWinO h9 (by omega) (by omega) (by omega),
    lineN_lineWinO h9 (by omega) (by omega) (by omega),
    lineN_lineWinO h9 (by omega) (by omega) (by omega),
    lineN_lineWinO h9 (by omega) (by omega) (by omega),
    lineN_lineWinO h9 (by omega) (by omega) (by omega)]
  simp [Bool.or_assoc]

lemma emptyN_bridge {t : TicTacToe} (h9 : t.board.length = 9) :
    emptyN (encB t.board)
      = t.board.any (fun c => c != 'X' && c != 'O') := by
  obtain ⟨c0, c1, c2, c3, c4, c5, c6, c7, c8, heq⟩ := exists_nine t.board h9
  unfold emptyN
  rw [TicTacToe.cellN_cell h9 (by omega : (0:Nat) < 9),
    TicTacToe.cellN_cell h9 (by omega : (1:Nat) < 9),
    TicTacToe.cellN_cell h9 (by omega : (2:Nat) < 9),
    TicTacToe.cellN_cell h9 (by omega : (3:Nat) < 9),
    TicTacToe.cellN_cell h9 (by omega : (4:Nat) < 9),
    TicTacToe.cellN_cell h9 (by omega : (5:Nat) < 9),
    TicTacToe.cellN_cell h9 (by omega : (6:Nat) < 9),
    TicTacToe.cellN_cell h9 (by omega : (7:Nat) < 9),
    TicTacToe.cellN_cell h9 (by omega : (8:Nat) < 9)]
  unfold TicTacToe.cell
  rw [heq]
  simp [encC_beq_zero, Bool.or_assoc]

lemma countN_bridgeX {t : TicTacToe} (h9 : t.board.length = 9) :
    countN (encB t.board) 1 = t.board.countP (· == 'X') := by
  obtain ⟨c0, c1, c2, c3, c4, c5, c6, c7, c8, heq⟩ := exists_nine t.board h9
  unfold countN
  rw [TicTacToe.cellN_cell h9 (by omega : (0:Nat) < 9),
    TicTacToe.cellN_cell h9 (by omega : (1:Nat) < 9),
    TicTacToe.cellN_cell h9 (by omega : (2:Nat) < 9),
    TicTacToe.cellN_cell h9 (by omega : (3:Nat) < 9),
    TicTacToe.cellN_cell h9 (by omega : (4:Nat) < 9),
    TicTacToe.cellN_cell h9 (by omega : (5:Nat) < 9),
    TicTacToe.cellN_cell h9 (by omega : (6:Nat) < 9),
    TicTacToe.cellN_cell h9 (by omega : (7:Nat) < 9),
    TicTacToe.cellN_cell h9 (by omega : (8:Nat) < 9)]
  unfold TicTacToe.cell
  rw [heq]
  simp only [List.countP_cons, List.countP_nil, encC_beq_one,
    List.getElem?_cons_zero, List.getElem?_cons_succ, Option.getD_some]
  ring

lemma countN_bridgeO {t : TicTacToe} (h9 : t.board.length = 9) :
    countN (encB t.board) 2 = t.board.countP (· == 'O') := by
  obtain ⟨c0, c1, c2, c3, c4, c5, c6, c7, c8, heq⟩ := exists_nine t.board h9
  unfold countN
  rw [TicTacToe.cellN_cell h9 (by omega : (0:Nat) < 9),
    TicTacToe.cellN_cell h9 (by omega : (1:Nat) < 9),
    TicTacToe.cellN_cell h9 (by omega : (2:Nat) < 9),
    TicTacToe.cellN_cell h9 (by omega : (3:Nat) < 9),
    TicTacToe.cellN_cell h9 (by omega : (4:Nat) < 9),
    TicTacToe.cellN_cell h9 (by omega : (5:Nat) < 9),
    TicTacToe.cellN_cell h9 (by omega : (6:Nat) < 9),
    TicTacToe.cellN_cell h9 (by omega : (7:Nat) < 9),
    TicTacToe.cellN_cell h9 (by omega : (8:Nat) < 9)]
  unfold TicTacToe.cell
  rw [heq]
  simp only [List.countP_cons, List.countP_nil, encC_beq_two,
    List.getElem?_cons_zero, List.getElem?_cons_succ, Option.getD_some]
  ring

lemma turn_bridge {t : TicTacToe} (hw : WfBoard t) :
    (countN (encB t.board) 1 ≤ countN (encB t.board) 2)
      ↔ t.turn_to_move = t.player_1 := by
  obtain ⟨hp1, hp2⟩ := hw.players
  rw [countN_bridgeX hw.length_nine, countN_bridgeO hw.length_nine]
  unfold TicTacToe.turn_to_move
  rw [hp1, hp2]
  constructor
  · intro h
    rw [if_pos h]
  · intro h
    by_contra hc
    rw [if_neg hc] at h
    exact absurd h (by decide)

lemma goN_bridge {t : TicTacToe} (hw : WfBoard t) :
    goN (encB t.board)
      = (match t.game_over with
         | GameOver.OnGoing => 0
         | GameOver.Draw => 3
         | GameOver.Winner c => if c = 'X' then 1 else 2) := by
  obtain ⟨hp1, hp2⟩ := hw.players
  have h9 := hw.length_nine
  unfold goN TicTacToe.game_over
  rw [winN_hasWinX h9, winN_hasWinO h9, hp1, hp2, emptyN_bridge h9]
  by_cases hx : t.hasWin 'X' = true
  · simp [hx]
  · rw [Bool.not_eq_true] at hx
    by_cases ho : t.hasWin 'O' = true
    · simp [hx, ho]
    · rw [Bool.not_eq_true] at ho
      by_cases he : t.board.any (fun c => c != 'X' && c != 'O') = true
      · simp [hx, ho, he]
      · rw [Bool.not_eq_true] at he
        simp [hx, ho, he]

/-! ### Soundness of the certificate checkers -/

lemma plainMinimax_some {fuel : Nat} {t : TicTacToe} (hw : WfBoard t)
    (hlen : t.get_all_moves.length < fuel) :
    ∃ v, plainMinimax fuel t = some v ∧ scoreRange v := by
  obtain ⟨r, v, -, hv, -, hvr, -, -⟩ :=
    TicTacToe.minimax_bounds fuel t (-128) 127 hw hlen (by norm_num)
  exact ⟨v, hv, hvr⟩

lemma TicTacToe.game_over_winner {t : TicTacToe} {c : Char}
    (h : t.game_over = GameOver.Winner c) :
    c = t.player_1 ∨ c = t.player_2 := by
  unfold TicTacToe.game_over at h
  by_cases h1 : t.hasWin t.player_1 = true
  · rw [if_pos h1] at h
    exact Or.inl (GameOver.Winner.inj h).symm
  · rw [if_neg h1] at h
    by_cases h2 : t.hasWin t.player_2 = true
    · rw [if_pos h2] at h
      exact Or.inr (GameOver.Winner.inj h).symm
    · rw [if_neg h2] at h
      split at h <;> cases h

lemma tryN_true {f : Nat → Bool} {b p i : Nat} (h : tryN f b p i = true) :
    cellN b i = 0 ∧ f (putN b i p) = true := by
  unfold tryN at h
  simp only [Bool.and_eq_true, beq_iff_eq] at h
  exact h

lemma allN_true {f : Nat → Bool} {b p i : Nat} (h : allN f b p i = true)
    (hc : cellN b i = 0) : f (putN b i p) = true := by
  unfold allN at h
  simp only [Bool.or_eq_true, bne_iff_ne] at h
  rcases h with h | h
  · exact absurd hc h
  · exact h

lemma TicTacToe.encB_make_move {t : TicTacToe} {pos : Nat} (hw : WfBoard t)
    (hmem : pos ∈ t.get_all_moves) :
    encB (t.make_move pos).board
      = putN (encB t.board) pos (encC t.turn_to_move) := by
  obtain ⟨hplt, hpx, hpo⟩ := TicTacToe.mem_get_all_moves.mp hmem
  have hz : encC ((t.board[pos]?).getD ' ') = 0 := by
    rw [encC_eq_zero_iff]
    constructor
    · rw [← hw.players.1]; exact hpx
    · rw [← hw.players.2]; exact hpo
  exact encB_set t.board pos t.turn_to_move hplt hz

lemma TicTacToe.cell_empty_of_mem {t : TicTacToe} {pos : Nat} (hw : WfBoard t)
    (hmem : pos ∈ t.get_all_moves) : cellN (encB t.board) pos = 0 := by
  obtain ⟨hplt, hpx, hpo⟩ := TicTacToe.mem_get_all_moves.mp hmem
  have hp9 : pos < 9 := by rw [← hw.length_nine]; exact hplt
  rw [TicTacToe.cellN_cell hw.length_nine hp9, encC_eq_zero_iff]
  constructor
  · rw [← hw.players.1]; exact hpx
  · rw [← hw.players.2]; exact hpo

lemma TicTacToe.mem_of_cell_empty {t : TicTacToe} {pos : Nat} (hw : WfBoard t)
    (hp9 : pos < 9) (hc : cellN (encB t.board) pos = 0) :
    pos ∈ t.get_all_moves := by
  rw [TicTacToe.cellN_cell hw.length_nine hp9, encC_eq_zero_iff] at hc
  rw [TicTacToe.mem_get_all_moves]
  refine ⟨by rw [hw.length_nine]; exact hp9, ?_, ?_⟩
  · rw [hw.players.1]; exact hc.1
  · rw [hw.players.2]; exact hc.2

lemma lowN_sound : ∀ (fuel : Nat) (k : Int) (t : TicTacToe) (v : Int),
    WfBoard t → t.get_all_moves.length < fuel →
    lowN fuel k (encB t.board) = true → plainMinimax fuel t = some v →
    k ≤ v := by
  intro fuel
  induction fuel with
  | zero => intro k t v _ _ hlow _; cases hlow
  | succ fuel ih =>
    intro k t v hw hlen hlow hv
    cases hg : t.game_over with
    | OnGoing =>
      have hgo : goN (encB t.board) = 0 := by rw [goN_bridge hw, hg]
      simp only [lowN, lowStep, hgo] at hlow
      have hne := TicTacToe.get_all_moves_ne_nil hg
      have hlen' : t.get_all_moves.length ≤ fuel := Nat.lt_succ_iff.mp hlen
      have hch : ∀ pos ∈ t.get_all_moves,
          ∃ w, plainMinimax fuel (t.make_move pos) = some w ∧ scoreRange w := by
        intro pos hp
        exact plainMinimax_some (hw.make_move pos)
          (lt_of_lt_of_le (TicTacToe.moves_decrease hp) hlen')
      by_cases hmax : t.turn_to_move = t.player_1
      · have hcond := (turn_bridge hw).mpr hmax
        rw [if_pos hcond] at hlow
        simp only [plainMinimax, hg, if_pos hmax] at hv
        obtain ⟨w, hpl, hwr, hub, -⟩ :=
          plainLoopF_max_spec t.get_all_moves t hch hne
        rw [hpl] at hv
        obtain rfl := Option.some.inj hv
        have step : ∀ i, i < 9 →
            tryN (lowN fuel k) (encB t.board) 1 i = true → k ≤ w := by
          intro i hi htry
          obtain ⟨hc0, hrec⟩ := tryN_true htry
          have hmem : i ∈ t.get_all_moves :=
            TicTacToe.mem_of_cell_empty hw hi hc0
          have henc : encB (t.make_move i).board
              = putN (encB t.board) i 1 := by
            rw [TicTacToe.encB_make_move hw hmem, hmax, hw.players.1]
            rfl
          rw [← henc] at hrec
          obtain ⟨vi, hvi, -⟩ := hch i hmem
          exact le_trans (ih k (t.make_move i) vi (hw.make_move i)
            (lt_of_lt_of_le (TicTacToe.moves_decrease hmem) hlen') hrec hvi)
            (hub i hmem vi hvi)
        simp only [Bool.or_eq_true] at hlow
        rcases hlow with ((((((((h | h) | h) | h) | h) | h) | h) | h) | h)
        · exact step 4 (by omega) h
        · exact step 0 (by omega) h
        · exact step 2 (by omega) h
        · exact step 6 (by omega) h
        · exact step 8 (by omega) h
        · exact step 1 (by omega) h
        · exact step 3 (by omega) h
        · exact step 5 (by omega) h
        · exact step 7 (by omega) h
      · have hcond : ¬(countN (encB t.board) 1 ≤ countN (encB t.board) 2) :=
          fun hc => hmax ((turn_bridge hw).mp hc)
        rw [if_neg hcond] at hlow
        simp only [plainMinimax, hg, if_neg hmax] at hv
        obtain ⟨w, hpl, hwr, hlb, pos0, hpos0, hatt⟩ :=
          plainLoopF_min_spec t.get_all_moves t hch hne
        rw [hpl] at hv
        obtain rfl := Option.some.inj hv
        simp only [Bool.and_eq_true] at hlow
        have hp9 : pos0 < 9 := by
          have h1 := (TicTacToe.mem_get_all_moves.mp hpos0).1
          rw [hw.length_nine] at h1
          exact h1
        have hall : allN (lowN fuel k) (encB t.board) 2 pos0 = true := by
          interval_cases pos0 <;> tauto
        have hc0 : cellN (encB t.board) pos0 = 0 :=
          TicTacToe.cell_empty_of_mem hw hpos0
        have hrec := allN_true hall hc0
        have henc : encB (t.make_move pos0).board
            = putN (encB t.board) pos0 2 := by
          rcases t.turn_mem with ht | ht
          · exact absurd ht hmax
          · rw [TicTacToe.encB_make_move hw hpos0, ht, hw.players.2]
            rfl
        rw [← henc] at hrec
        exact ih k (t.make_move pos0) w (hw.make_move pos0)
          (lt_of_lt_of_le (TicTacToe.moves_decrease hpos0) hlen') hrec hatt
    | Winner c =>
      have hvv : plainMinimax (Nat.succ fuel) t = t.evaluate := by
        simp only [plainMinimax, hg]
      rw [hvv] at hv
      rcases TicTacToe.game_over_winner hg with hc | hc
      · have hcX : c = 'X' := by rw [hc, hw.players.1]
        have hgo : goN (encB t.board) = 1 := by
          rw [goN_bridge hw, hg]
          simp [hcX]
        simp only [lowN, lowStep, hgo] at hlow
        have hk := of_decide_eq_true hlow
        have hev : t.evaluate = some 1 := by
          simp only [TicTacToe.evaluate, hg]
          rw [if_pos hc]
        rw [hev] at hv
        obtain rfl := Option.some.inj hv
        exact hk
      · have hcO : c = 'O' := by rw [hc, hw.players.2]
        have hgo : goN (encB t.board) = 2 := by
          rw [goN_bridge hw, hg]
          simp [hcO]
        simp only [lowN, lowStep, hgo] at hlow
        have hk := of_decide_eq_true hlow
        have hne : ¬(c = t.player_1) := by
          rw [hcO, hw.players.1]
          decide
        have hev : t.evaluate = some (-1) := by
          simp only [TicTacToe.evaluate, hg]
          rw [if_neg hne]
        rw [hev] at hv
        obtain rfl := Option.some.inj hv
        exact hk
    | Draw =>
      have hvv : plainMinimax (Nat.succ fuel) t = t.evaluate := by
        simp only [plainMinimax, hg]
      rw [hvv] at hv
      have hgo : goN (encB t.board) = 3 := by rw [goN_bridge hw, hg]
      simp only [lowN, lowStep, hgo] at hlow
      have hk := of_decide_eq_true hlow
      have hev : t.evaluate = some 0 := by
        simp only [TicTacToe.evaluate, hg]
      rw [hev] at hv
      obtain rfl := Option.some.inj hv
      exact hk

lemma upN_sound : ∀ (fuel : Nat) (k : Int) (t : TicTacToe) (v : Int),
    WfBoard t → t.get_all_moves.length < fuel →
    upN fuel k (encB t.board) = true → plainMinimax fuel t = some v →
    v ≤ k := by
  intro fuel
  induction fuel with
  | zero => intro k t v _ _ hup _; cases hup
  | succ fuel ih =>
    intro k t v hw hlen hup hv
    cases hg : t.game_over with
    | OnGoing =>
      have hgo : goN (encB t.board) = 0 := by rw [goN_bridge hw, hg]
      simp only [upN, upStep, hgo] at hup
      have hne := TicTacToe.get_all_moves_ne_nil hg
      have hlen' : t.get_all_moves.length ≤ fuel := Nat.lt_succ_iff.mp hlen
      have hch : ∀ pos ∈ t.get_all_moves,
          ∃ w, plainMinimax fuel (t.make_move pos) = some w ∧ scoreRange w := by
        intro pos hp
        exact plainMinimax_some (hw.make_move pos)
          (lt_of_lt_of_le (TicTacToe.moves_decrease hp) hlen')
      by_cases hmax : t.turn_to_move = t.player_1
      · have hcond := (turn_bridge hw).mpr hmax
        rw [if_pos hcond] at hup
        simp only [plainMinimax, hg, if_pos hmax] at hv
        obtain ⟨w, hpl, hwr, hub, pos0, hpos0, hatt⟩ :=
          plainLoopF_max_spec t.get_all_moves t hch hne
        rw [hpl] at hv
        obtain rfl := Option.some.inj hv
        simp only [Bool.and_eq_true] at hup
        have hp9 : pos0 < 9 := by
          have h1 := (TicTacToe.mem_get_all_moves.mp hpos0).1
          rw [hw.length_nine] at h1
          exact h1
        have hall : allN (upN fuel k) (encB t.board) 1 pos0 = true := by
          interval_cases pos0 <;> tauto
        have hc0 : cellN (encB t.board) pos0 = 0 :=
          TicTacToe.cell_empty_of_mem hw hpos0
        have hrec := allN_true hall hc0
        have henc : encB (t.make_move pos0).board
            = putN (encB t.board) pos0 1 := by
          rw [TicTacToe.encB_make_move hw hpos0, hmax, hw.players.1]
          rfl
        rw [← henc] at hrec
        exact ih k (t.make_move pos0) w (hw.make_move pos0)
          (lt_of_lt_of_le (TicTacToe.moves_decrease hpos0) hlen') hrec hatt
      · have hcond : ¬(countN (encB t.board) 1 ≤ countN (encB t.board) 2) :=
          fun hc => hmax ((turn_bridge hw).mp hc)
        rw [if_neg hcond] at hup
        simp only [plainMinimax, hg, if_neg hmax] at hv
        obtain ⟨w, hpl, hwr, hlb, -⟩ :=
          plainLoopF_min_spec t.get_all_moves t hch hne
        rw [hpl] at hv
        obtain rfl := Option.some.inj hv
        have step : ∀ i, i < 9 →
            tryN (upN fuel k) (encB t.board) 2 i = true → w ≤ k := by
          intro i hi htry
          obtain ⟨hc0, hrec⟩ := tryN_true htry
          have hmem : i ∈ t.get_all_moves :=
            TicTacToe.mem_of_cell_empty hw hi hc0
          have henc : encB (t.make_move i).board
              = putN (encB t.board) i 2 := by
            rcases t.turn_mem with ht | ht
            · exact absurd ht hmax
            · rw [TicTacToe.encB_make_move hw hmem, ht, hw.players.2]
              rfl
          rw [← henc] at hrec
          obtain ⟨vi, hvi, -⟩ := hch i hmem
          exact le_trans (hlb i hmem vi hvi)
            (ih k (t.make_move i) vi (hw.make_move i)
              (lt_of_lt_of_le (TicTacToe.moves_decrease hmem) hlen') hrec hvi)
        simp only [Bool.or_eq_true] at hup
        rcases hup with ((((((((h | h) | h) | h) | h) | h) | h) | h) | h)
        · exact step 4 (by omega) h
        · exact step 0 (by omega) h
        · exact step 2 (by omega) h
        · exact step 6 (by omega) h
        · exact step 8 (by omega) h
        · exact step 1 (by omega) h
        · exact step 3 (by omega) h
        · exact step 5 (by omega) h
        · exact step 7 (by omega) h
    | Winner c =>
      have hvv : plainMinimax (Nat.succ fuel) t = t.evaluate := by
        simp only [plainMinimax, hg]
      rw [hvv] at hv
      rcases TicTacToe.game_over_winner hg with hc | hc
      · have hcX : c = 'X' := by rw [hc, hw.players.1]
        have hgo : goN (encB t.board) = 1 := by
          rw [goN_bridge hw, hg]
          simp [hcX]
        simp only [upN, upStep, hgo] at hup
        have hk := of_decide_eq_true hup
        have hev : t.evaluate = some 1 := by
          simp only [TicTacToe.evaluate, hg]
          rw [if_pos hc]
        rw [hev] at hv
        obtain rfl := Option.some.inj hv
        exact hk
      · have hcO : c = 'O' := by rw [hc, hw.players.2]
        have hgo : goN (encB t.board) = 2 := by
          rw [goN_bridge hw, hg]
          simp [hcO]
        simp only [upN, upStep, hgo] at hup
        have hk := of_decide_eq_true hup
        have hne : ¬(c = t.player_1) := by
          rw [hcO, hw.players.1]
          decide
        have hev : t.evaluate = some (-1) := by
          simp only [TicTacToe.evaluate, hg]
          rw [if_neg hne]
        rw [hev] at hv
        obtain rfl := Option.some.inj hv
        exact hk
    | Draw =>
      have hvv : plainMinimax (Nat.succ fuel) t = t.evaluate := by
        simp only [plainMinimax, hg]
      rw [hvv] at hv
      have hgo : goN (encB t.board) = 3 := by rw [goN_bridge hw, hg]
      simp only [upN, upStep, hgo] at hup
      have hk := of_decide_eq_true hup
      have hev : t.evaluate = some 0 := by
        simp only [TicTacToe.evaluate, hg]
      rw [hev] at hv
      obtain rfl := Option.some.inj hv
      exact hk

set_option maxHeartbeats 4000000 in
/-- The first player can force at least a draw from the empty board
(certificate search, evaluated by the kernel). -/
lemma lowN_new : lowN 10 0 (encB TicTacToe.new.board) = true := by
  decide

set_option maxHeartbeats 12000000 in
/-- The second player can force at least a draw from the empty board
(certificate search, evaluated by the kernel). -/
lemma upN_new : upN 10 0 (encB TicTacToe.new.board) = true := by
  decide

/-! ### Last helpers -/

lemma WfBoard.moves_le_nine {t : TicTacToe} (hw : WfBoard t) :
    t.get_all_moves.length ≤ 9 := by
  unfold TicTacToe.get_all_moves
  calc (List.filter _ (List.range t.board.length)).length
      ≤ (List.range t.board.length).length := List.length_filter_le _ _
    _ = t.board.length := List.length_range _
    _ = 9 := hw.length_nine

lemma TicTacToe.valid_lt {t : TicTacToe} {mv : Nat}
    (h : t.is_move_valid mv = true) : mv < t.board.length := by
  unfold TicTacToe.is_move_valid at h
  by_cases hle : t.board.length ≤ mv
  · rw [if_pos hle] at h
    cases h
  · exact not_le.mp hle

lemma maxByKeyLast_isSome {l : List (Int × Int)} (h : l ≠ []) :
    ∃ pr, maxByKeyLast l = some pr := by
  cases l with
  | nil => exact absurd rfl h
  | cons p rest => exact ⟨_, rfl⟩

lemma minByKeyFirst_isSome {l : List (Int × Int)} (h : l ≠ []) :
    ∃ pr, minByKeyFirst l = some pr := by
  cases l with
  | nil => exact absurd rfl h
  | cons p rest => exact ⟨_, rfl⟩

lemma plainMinimax_new : plainMinimax 10 TicTacToe.new = some 0 := by
  have hw : WfBoard TicTacToe.new := by decide
  have hlen : TicTacToe.new.get_all_moves.length < 10 := by decide
  obtain ⟨v, hv, hvr⟩ := plainMinimax_some hw hlen
  have h0 : 0 ≤ v := lowN_sound 10 0 TicTacToe.new v hw hlen lowN_new hv
  have h1 : v ≤ 0 := upN_sound 10 0 TicTacToe.new v hw hlen upN_new hv
  have hv0 : v = 0 := le_antisymm h1 h0
  rw [← hv0]
  exact hv

/-! ### The claims -/

/-- C1: for every reachable board, minimax with alpha-beta pruning called
with the full window (`alpha = i8::MIN = -128`, `beta = i8::MAX = 127`)
returns the same score as a plain exhaustive minimax without pruning of the
same position (and hands the board back unchanged). -/
theorem C1_alphabeta_equals_plain (t : TicTacToe) (h : Reachable t) :
    ∃ v, TicTacToe.minimax 10 t (-128) 127 = some (v, t) ∧
      plainMinimax 10 t = some v := by
  have hw := h.wf
  have hlen : t.get_all_moves.length < 10 :=
    Nat.lt_succ_of_le hw.moves_le_nine
  obtain ⟨r, v, hr, hv, hrr, hvr, hlb, hub⟩ :=
    TicTacToe.minimax_bounds 10 t (-128) 127 hw hlen (by norm_num)
  have hrn : r = -1 ∨ r = 0 ∨ r = 1 := hrr
  have hvn : v = -1 ∨ v = 0 ∨ v = 1 := hvr
  have hrv : r = v := by
    simp only [min_le_iff, le_max_iff] at hlb hub
    omega
  rw [hrv] at hr
  exact ⟨v, hr, hv⟩

/-- C1 witness: the theorem applied to the initial board. -/
theorem C1_witness :
    ∃ v, TicTacToe.minimax 10 TicTacToe.new (-128) 127
        = some (v, TicTacToe.new) ∧
      plainMinimax 10 TicTacToe.new = some v :=
  C1_alphabeta_equals_plain TicTacToe.new Reachable.init

/-- C3: minimax of the initial empty board (all nine cells holding their
digit labels, the first player to move), called with the full alpha-beta
window, evaluates to 0: optimal play from the start is a forced draw. -/
theorem C3_initial_board_draw :
    TicTacToe.minimax 10 TicTacToe.new (-128) 127
      = some (0, TicTacToe.new) := by
  have hw : WfBoard TicTacToe.new := by decide
  have hlen : TicTacToe.new.get_all_moves.length < 10 := by decide
  obtain ⟨r, v, hr, hv, hrr, hvr, hlb, hub⟩ :=
    TicTacToe.minimax_bounds 10 TicTacToe.new (-128) 127 hw hlen (by norm_num)
  rw [plainMinimax_new] at hv
  obtain rfl := Option.some.inj hv
  have hrn : r = -1 ∨ r = 0 ∨ r = 1 := hrr
  have hr0 : r = 0 := by
    simp only [min_le_iff, le_max_iff] at hlb hub
    omega
  rw [hr0] at hr
  exact hr

/-- C4: for every reachable board, `minimax` (with any bounds) and
`best_move` return the board exactly equal to its state before the call:
every move applied during search was retracted, including when the
alpha-beta break fired. -/
theorem C4_search_restores_board (t : TicTacToe) (h : Reachable t) :
    (∀ alpha beta : Int,
      ∃ r, TicTacToe.minimax 10 t alpha beta = some (r, t)) ∧
    (∃ m, TicTacToe.best_move 10 t = some (m, t)) := by
  have hw := h.wf
  have hlen : t.get_all_moves.length < 10 :=
    Nat.lt_succ_of_le hw.moves_le_nine
  constructor
  · intro alpha beta
    obtain ⟨r, hr, -⟩ := TicTacToe.minimax_restore 10 t alpha beta hw hlen
    exact ⟨r, hr⟩
  · obtain ⟨pairs, hbm, -, -⟩ := bmLoopF_spec (N := 9)
      (fun t2 a b hw2 hl2 => TicTacToe.minimax_restore 10 t2 a b hw2
        (Nat.lt_succ_of_le (Nat.le_of_lt_succ (Nat.lt_succ_of_lt hl2))))
      t.get_all_moves t hw hw.moves_le_nine (fun _ hp => hp)
    unfold TicTacToe.best_move
    rw [hbm]
    exact ⟨_, rfl⟩

/-- C4 witness: the theorem applied to the initial board, with the
(inverted) window `(-5, 5)` for the minimax half. -/
theorem C4_witness :
    (∃ r, TicTacToe.minimax 10 TicTacToe.new (-5) 5
        = some (r, TicTacToe.new)) ∧
    (∃ m, TicTacToe.best_move 10 TicTacToe.new
        = some (m, TicTacToe.new)) :=
  ⟨(C4_search_restores_board TicTacToe.new Reachable.init).1 (-5) 5,
    (C4_search_restores_board TicTacToe.new Reachable.init).2⟩

/-- C5: on any board whose cell `idx` still holds its `Empty(idx)` digit
label, `make_move idx` followed by `undo_move idx` restores the board
bit-for-bit. -/
theorem C5_make_then_undo (t : TicTacToe) (idx : Nat)
    (h1 : idx < t.board.length) (h2 : t.cell idx = digitChar idx) :
    (t.make_move idx).undo_move idx = t :=
  TicTacToe.make_undo h1 h2

/-- C5 witness: the theorem applied to the initial board at cell 4. -/
theorem C5_witness :
    4 < TicTacToe.new.board.length ∧
    TicTacToe.new.cell 4 = digitChar 4 ∧
    (TicTacToe.new.make_move 4).undo_move 4 = TicTacToe.new :=
  ⟨by decide, by decide, C5_make_then_undo TicTacToe.new 4 (by decide) (by decide)⟩

/-- C6: on every board with distinct player marks, `evaluate` returns `+1`
when `player_1` has won, `-1` when `player_2` has won, `0` on a draw, and
fails (modelled `none`, a panic in the source) on an in-progress board. -/
theorem C6_evaluate_contract (t : TicTacToe) (hp : t.player_1 ≠ t.player_2) :
    (t.game_over = GameOver.Winner t.player_1 → t.evaluate = some 1) ∧
    (t.game_over = GameOver.Winner t.player_2 → t.evaluate = some (-1)) ∧
    (t.game_over = GameOver.Draw → t.evaluate = some 0) ∧
    (t.game_over = GameOver.OnGoing → t.evaluate = none) := by
  refine ⟨?_, ?_, ?_, ?_⟩ <;> intro hg <;> simp only [TicTacToe.evaluate, hg]
  · simp
  · rw [if_neg (Ne.symm hp)]

/-- C6 witness: the theorem applied to a won, a drawn and an in-progress
board. -/
theorem C6_witness :
    ({ player_1 := 'X', player_2 := 'O',
       board := ['X', 'X', 'X', 'O', 'O', '5', '6', '7', '8'] }
      : TicTacToe).evaluate = some 1 ∧
    TicTacToe.new.evaluate = none :=
  ⟨(C6_evaluate_contract _ (by decide)).1 (by decide),
    (C6_evaluate_contract TicTacToe.new (by decide)).2.2.2 (by decide)⟩

/-- C9: from the fresh board, applying move 4 places `player_1`'s mark so
the board becomes `['0','1','2','3','X','5','6','7','8']`; afterwards
`turn_to_move` returns `player_2` (`'O'`), `is_move_valid 4` is false and
`is_move_valid 0` is true. -/
theorem C9_first_move_scenario :
    (TicTacToe.new.make_move 4).board
        = ['0', '1', '2', '3', 'X', '5', '6', '7', '8'] ∧
    (TicTacToe.new.make_move 4).turn_to_move
        = (TicTacToe.new.make_move 4).player_2 ∧
    (TicTacToe.new.make_move 4).turn_to_move = 'O' ∧
    (TicTacToe.new.make_move 4).is_move_valid 4 = false ∧
    (TicTacToe.new.make_move 4).is_move_valid 0 = true := by
  decide

/-- C10: for every reachable board and ANY bounds (the window may even be
inverted), `minimax` returns a score in `{-1, 0, 1}`: the loop always runs
at least one iteration on a non-terminal board, so the `i32` sentinel
accumulators are never truncated into the returned score. -/
theorem C10_minimax_score_range (t : TicTacToe) (h : Reachable t)
    (alpha beta : Int) :
    ∃ r, TicTacToe.minimax 10 t alpha beta = some (r, t) ∧
      (r = -1 ∨ r = 0 ∨ r = 1) := by
  have hw := h.wf
  have hlen : t.get_all_moves.length < 10 :=
    Nat.lt_succ_of_le hw.moves_le_nine
  obtain ⟨r, hr, hrr⟩ := TicTacToe.minimax_restore 10 t alpha beta hw hlen
  exact ⟨r, hr, hrr⟩

/-- C10 witness: the theorem applied to the initial board with the inverted
window `(3, -7)`. -/
theorem C10_witness :
    ∃ r, TicTacToe.minimax 10 TicTacToe.new 3 (-7)
        = some (r, TicTacToe.new) ∧ (r = -1 ∨ r = 0 ∨ r = 1) :=
  C10_minimax_score_range TicTacToe.new Reachable.init 3 (-7)

/-- C7: every reachable board has exactly one of the four outcomes (the
four values below are distinct values of the `GameOver` type, so the
disjunction is exclusive), and the two players never simultaneously each
complete a winning triple. -/
theorem C7_outcome_invariant (t : TicTacToe) (h : Reachable t) :
    (t.game_over = GameOver.OnGoing ∨ t.game_over = GameOver.Draw ∨
      t.game_over = GameOver.Winner 'X' ∨ t.game_over = GameOver.Winner 'O') ∧
    ¬(t.hasWin 'X' = true ∧ t.hasWin 'O' = true) := by
  have hw := h.wf
  constructor
  · unfold TicTacToe.game_over
    rw [hw.players.1, hw.players.2]
    by_cases hx : t.hasWin 'X' = true
    · rw [if_pos hx]
      exact Or.inr (Or.inr (Or.inl rfl))
    · rw [if_neg hx]
      by_cases ho : t.hasWin 'O' = true
      · rw [if_pos ho]
        exact Or.inr (Or.inr (Or.inr rfl))
      · rw [if_neg ho]
        by_cases he : t.board.any (fun c => c != 'X' && c != 'O') = true
        · rw [if_pos he]
          exact Or.inl rfl
        · rw [if_neg he]
          exact Or.inr (Or.inl rfl)
  · cases h with
    | init => decide
    | @step t0 mv hre hgo hval =>
      have hw0 := hre.wf
      obtain ⟨hwx, hwo, -⟩ := TicTacToe.game_over_onGoing hgo
      rw [hw0.players.1] at hwx
      rw [hw0.players.2] at hwo
      have hlt := TicTacToe.valid_lt hval
      rintro ⟨hX, hO⟩
      rcases t0.turn_mem with ht | ht
      · have hfO : (t0.make_move mv).hasWin 'O' = false :=
          TicTacToe.hasWin_make_move_other hlt
            (by rw [ht, hw0.players.1]; decide) hwo
        rw [hfO] at hO
        cases hO
      · have hfX : (t0.make_move mv).hasWin 'X' = false :=
          TicTacToe.hasWin_make_move_other hlt
            (by rw [ht, hw0.players.2]; decide) hwx
        rw [hfX] at hX
        cases hX

/-- C7 witness: the theorem applied to the initial board. -/
theorem C7_witness :
    (TicTacToe.new.game_over = GameOver.OnGoing ∨
      TicTacToe.new.game_over = GameOver.Draw ∨
      TicTacToe.new.game_over = GameOver.Winner 'X' ∨
      TicTacToe.new.game_over = GameOver.Winner 'O') ∧
    ¬(TicTacToe.new.hasWin 'X' = true ∧ TicTacToe.new.hasWin 'O' = true) :=
  C7_outcome_invariant TicTacToe.new Reachable.init

/-- C8: on every reachable board, `best_move` returns the sentinel `-1`
exactly when the list of legal moves is empty, and otherwise an index of a
currently empty cell in `[0, 9)` (and it hands the board back unchanged). -/
theorem C8_best_move_sentinel (t : TicTacToe) (h : Reachable t) :
    ∃ m, TicTacToe.best_move 10 t = some (m, t) ∧
      (m = -1 ↔ t.get_all_moves = []) ∧
      (t.get_all_moves ≠ [] →
        0 ≤ m ∧ m < 9 ∧ m.toNat ∈ t.get_all_moves) := by
  have hw := h.wf
  obtain ⟨pairs, hbm, hfst, -⟩ := bmLoopF_spec (N := 9)
    (fun t2 a b hw2 hl2 =>
      TicTacToe.minimax_restore 10 t2 a b hw2 (Nat.lt_succ_of_lt hl2))
    t.get_all_moves t hw hw.moves_le_nine (fun _ hp => hp)
  unfold TicTacToe.best_move
  rw [hbm]
  cases hmoves : t.get_all_moves with
  | nil =>
    rw [hmoves] at hfst
    have hpairs : pairs = [] := by
      cases pairs with
      | nil => rfl
      | cons p ps => simp at hfst
    subst hpairs
    refine ⟨-1, ?_, by simp, fun hne => absurd rfl hne⟩
    by_cases hmax : t.turn_to_move = t.player_1 <;>
      simp [maxByKeyLast, minByKeyFirst, hmax]
  | cons p rest =>
    rw [hmoves] at hfst
    have hpne : pairs ≠ [] := by
      intro hnil
      rw [hnil] at hfst
      simp at hfst
    by_cases hmax : t.turn_to_move = t.player_1
    · obtain ⟨pr, hsel⟩ := maxByKeyLast_isSome hpne
      have hpr : pr ∈ pairs := isLastMax_mem (maxByKeyLast_spec hsel)
      have h1 : pr.1 ∈ pairs.map Prod.fst := List.mem_map_of_mem Prod.fst hpr
      rw [hfst] at h1
      obtain ⟨pos, hpos, heq⟩ := List.mem_map.mp h1
      have hp9 : pos < 9 := by
        have hmem : pos ∈ t.get_all_moves := by rw [hmoves]; exact hpos
        have := (TicTacToe.mem_get_all_moves.mp hmem).1
        rw [hw.length_nine] at this
        exact this
      refine ⟨pr.1, ?_, ?_, ?_⟩
      · simp only [Option.map_some']
        rw [if_pos hmax, hsel]
      · constructor
        · intro hm1
          rw [← heq] at hm1
          omega
        · intro hnil
          cases hnil
      · intro _
        refine ⟨by omega, by rw [← heq]; exact_mod_cast hp9, ?_⟩
        rw [← heq]
        simpa using hpos
    · obtain ⟨pr, hsel⟩ := minByKeyFirst_isSome hpne
      have hpr : pr ∈ pairs := isFirstMin_mem (minByKeyFirst_spec hsel)
      have h1 : pr.1 ∈ pairs.map Prod.fst := List.mem_map_of_mem Prod.fst hpr
      rw [hfst] at h1
      obtain ⟨pos, hpos, heq⟩ := List.mem_map.mp h1
      have hp9 : pos < 9 := by
        have hmem : pos ∈ t.get_all_moves := by rw [hmoves]; exact hpos
        have := (TicTacToe.mem_get_all_moves.mp hmem).1
        rw [hw.length_nine] at this
        exact this
      refine ⟨pr.1, ?_, ?_, ?_⟩
      · simp only [Option.map_some']
        rw [if_neg hmax, hsel]
      · constructor
        · intro hm1
          rw [← heq] at hm1
          omega
        · intro hnil
          cases hnil
      · intro _
        refine ⟨by omega, by rw [← heq]; exact_mod_cast hp9, ?_⟩
        rw [← heq]
        simpa using hpos

/-- C8 witness: the theorem applied to the initial board. -/
theorem C8_witness :
    ∃ m, TicTacToe.best_move 10 TicTacToe.new = some (m, TicTacToe.new) ∧
      (m = -1 ↔ TicTacToe.new.get_all_moves = []) ∧
      (TicTacToe.new.get_all_moves ≠ [] →
        0 ≤ m ∧ m < 9 ∧ m.toNat ∈ TicTacToe.new.get_all_moves) :=
  C8_best_move_sentinel TicTacToe.new Reachable.init

/-- C2 counterexample: on the in-progress board `tieBoard` (`player_1` to
move, all three legal moves losing, so all scores tie at `-1`), the claimed
selection rule — first-encountered move of maximal score — picks move 6,
but `best_move` (Rust `max_by_key`, which keeps the LAST maximal element)
returns move 8. -/
theorem C2_counterexample :
    tieBoard.game_over = GameOver.OnGoing ∧
    tieBoard.turn_to_move = tieBoard.player_1 ∧
    bmLoopF (fun t2 a b => TicTacToe.minimax 10 t2 a b) tieBoard
        tieBoard.get_all_moves
      = some ([(6, -1), (7, -1), (8, -1)], tieBoard) ∧
    maxByKeyFirst [(6, -1), (7, -1), (8, -1)] = some (6, -1) ∧
    (TicTacToe.best_move 10 tieBoard).map Prod.fst = some 8 := by
  refine ⟨by decide, by decide, by decide, by decide, by decide⟩

/-- C2 (amended): on every reachable in-progress board, `best_move` selects
among the `(move, score)` pairs produced in ascending index order; when
`player_1` is to move it returns the LAST pair of maximal score (Rust's
`max_by_key` tie-breaking), and when `player_2` is to move the FIRST pair
of minimal score (`min_by_key`). -/
theorem C2_amended_selection (t : TicTacToe) (h : Reachable t)
    (hg : t.game_over = GameOver.OnGoing) :
    ∃ pairs pr,
      bmLoopF (fun t2 a b => TicTacToe.minimax 10 t2 a b) t t.get_all_moves
        = some (pairs, t) ∧
      TicTacToe.best_move 10 t = some (pr.1, t) ∧
      (t.turn_to_move = t.player_1 → IsLastMax pairs pr) ∧
      (t.turn_to_move ≠ t.player_1 → IsFirstMin pairs pr) := by
  have hw := h.wf
  obtain ⟨pairs, hbm, hfst, -⟩ := bmLoopF_spec (N := 9)
    (fun t2 a b hw2 hl2 =>
      TicTacToe.minimax_restore 10 t2 a b hw2 (Nat.lt_succ_of_lt hl2))
    t.get_all_moves t hw hw.moves_le_nine (fun _ hp => hp)
  have hne := TicTacToe.get_all_moves_ne_nil hg
  have hpne : pairs ≠ [] := by
    intro hnil
    rw [hnil] at hfst
    have hmn : t.get_all_moves = [] := by
      cases hmm : t.get_all_moves with
      | nil => rfl
      | cons a l =>
        rw [hmm] at hfst
        simp at hfst
    exact hne hmn
  by_cases hmax : t.turn_to_move = t.player_1
  · obtain ⟨pr, hsel⟩ := maxByKeyLast_isSome hpne
    refine ⟨pairs, pr, hbm, ?_, fun _ => maxByKeyLast_spec hsel,
      fun hc => absurd hmax hc⟩
    unfold TicTacToe.best_move
    rw [hbm]
    simp only [Option.map_some']
    rw [if_pos hmax, hsel]
  · obtain ⟨pr, hsel⟩ := minByKeyFirst_isSome hpne
    refine ⟨pairs, pr, hbm, ?_, fun hc => absurd hc hmax,
      fun _ => minByKeyFirst_spec hsel⟩
    unfold TicTacToe.best_move
    rw [hbm]
    simp only [Option.map_some']
    rw [if_neg hmax, hsel]

/-- C2 witness: the amended theorem applied to the reachable in-progress
board `tieBoard` (reached by the move sequence 1, 0, 3, 2, 5, 4). -/
theorem C2_witness :
    ∃ pairs pr,
      bmLoopF (fun t2 a b => TicTacToe.minimax 10 t2 a b) tieBoard
        tieBoard.get_all_moves = some (pairs, tieBoard) ∧
      TicTacToe.best_move 10 tieBoard = some (pr.1, tieBoard) ∧
      (tieBoard.turn_to_move = tieBoard.player_1 → IsLastMax pairs pr) ∧
      (tieBoard.turn_to_move ≠ tieBoard.player_1 → IsFirstMin pairs pr) := by
  have h0 : Reachable TicTacToe.new := Reachable.init
  have h1 : Reachable (TicTacToe.new.make_move 1) :=
    Reachable.step h0 (by decide) (by decide)
  have h2 : Reachable ((TicTacToe.new.make_move 1).make_move 0) :=
    Reachable.step h1 (by decide) (by decide)
  have h3 : Reachable
      (((TicTacToe.new.make_move 1).make_move 0).make_move 3) :=
    Reachable.step h2 (by decide) (by decide)
  have h4 : Reachable
      ((((TicTacToe.new.make_move 1).make_move 0).make_move 3).make_move 2) :=
    Reachable.step h3 (by decide) (by decide)
  have h5 : Reachable
      (((((TicTacToe.new.make_move 1).make_move 0).make_move 3).make_move
        2).make_move 5) :=
    Reachable.step h4 (by decide) (by decide)
  have h6 : Reachable
      ((((((TicTacToe.new.make_move 1).make_move 0).make_move 3).make_move
        2).make_move 5).make_move 4) :=
    Reachable.step h5 (by decide) (by decide)
  have heq :
      (((((TicTacToe.new.make_move 1).make_move 0).make_move 3).make_move
        2).make_move 5).make_move 4 = tieBoard := by decide
  exact C2_amended_selection tieBoard (heq ▸ h6) (by decide)
